import Mathlib

/-!
Verification of the suggestion-patch engine of the ultraWrite repository
(`src/frontend/src/utils/wordDiff.ts`, word-level diff generation, and the
text-integration half of the same file: position validation, content search,
and atomic patch application).

Modelling conventions:
* Text (the editor buffer, suggestion texts) is modelled as `List Char`,
  abbreviated `Txt`.  `doc.textBetween(a, b)` becomes `textBetween buf a b`
  (slice of the flat text) and `doc.content.size` becomes `buf.length`; the
  ProseMirror node-boundary accounting of positions is out of scope, the
  buffer is a flat character sequence as in the specification's data model.
* Character offsets are `Nat` (the source never reaches the `from < 0`
  branch with the inputs modelled here; bounds checks keep the `to > size`
  and `from > to` disjuncts).
* The impure `generateId` (`Date.now` + random suffix) is omitted: the `id`
  field is an opaque identifier that no modelled computation inspects.
* The TipTap editor object is replaced by the buffer value it wraps;
  mutating entry points return the new buffer next to their `ApplyResult`.
* ProseMirror transaction steps (`tr.delete`, `tr.insert`, `tr.replaceWith`)
  throw a `RangeError` when given positions outside the current document;
  the `try/catch` blocks of the source turn that into a failed
  `ApplyResult`.  The step builders below return `Except String Txt` to
  model exactly that.
-/

namespace WordDiff

abbrev Txt := List Char

/-- The JavaScript regexp class `\s` (as used by `/\s+/g`, `/[\s\n\r]/` and
`String.prototype.trim`): space, the control whitespace characters, NBSP,
and the Unicode space separators. -/
def jsIsSpace (c : Char) : Bool :=
  let n := c.toNat
  n = 0x20 || n = 0x9 || n = 0xA || n = 0xD || n = 0xB || n = 0xC ||
  n = 0xA0 || n = 0x1680 || (0x2000 ≤ n && n ≤ 0x200A) ||
  n = 0x2028 || n = 0x2029 || n = 0x202F || n = 0x205F || n = 0x3000 || n = 0xFEFF

/-- Worker for `collapseWS`: `inRun` records whether the previous character
was whitespace (in which case further whitespace is swallowed). -/
def collapseGo (inRun : Bool) : Txt → Txt
  | [] => []
  | c :: cs =>
    if jsIsSpace c then
      if inRun then collapseGo true cs else ' ' :: collapseGo true cs
    else c :: collapseGo false cs

/-- The JavaScript `s.replace(/\s+/g, ' ')`: every maximal whitespace run
becomes a single space. -/
def collapseWS (s : Txt) : Txt := collapseGo false s

/-- The JavaScript `s.trim()`: strip leading and trailing whitespace. -/
def trimWS (s : Txt) : Txt :=
  ((s.dropWhile jsIsSpace).reverse.dropWhile jsIsSpace).reverse

/-- The whitespace normalisation used throughout the source:
`s.replace(/\s+/g, ' ').trim()`. -/
def normWS (s : Txt) : Txt := trimWS (collapseWS s)

/-- Model of `doc.textBetween(a, b)` on the flat buffer. -/
def textBetween (buf : Txt) (a b : Nat) : Txt := (buf.drop a).take (b - a)

/-- Replace the half-open range `[a, b)` of `buf` by `ins`. -/
def splice (buf : Txt) (a b : Nat) (ins : Txt) : Txt :=
  buf.take a ++ ins ++ buf.drop b

/-! ## Model of the external jsdiff library (`diffWordsWithSpace`)

Modelled from the spec: the `diff` npm package that
`generateWordSuggestions` imports is not part of this repository, so its
behaviour is reproduced from the specification's description (§4.1):
tokenize both strings into words-with-attached-whitespace "so that
formatting between words is never silently dropped", run "a classic
minimal-edit-script diff over these tokens", and deliver the result as
components in which adjacent tokens of the same kind are merged and, inside
every changed region, removed text precedes added text.  The tokenizer is
modelled as maximal runs of whitespace versus non-whitespace characters. -/

/-- Diff token kinds; also used for the first-pass change records of
`generateWordSuggestions` (whose `type` field uses the same three states). -/
inductive EKind where
  | add | remove | unchanged
deriving DecidableEq, Repr

/-- The spec's `DiffToken`: `{kind, text}` (the running position is
reconstructed by the consumer). -/
structure DiffChange where
  kind : EKind
  value : Txt
deriving DecidableEq, Repr

/-- Tokenizer worker: `cur` is the (nonempty) token being grown, `curWS`
whether it is a whitespace run. -/
def tokGo (cur : Txt) (curWS : Bool) : Txt → List Txt
  | [] => [cur]
  | c :: cs =>
    if jsIsSpace c = curWS then tokGo (cur ++ [c]) curWS cs
    else cur :: tokGo [c] (jsIsSpace c) cs

/-- Modelled from the spec: tokenisation into words with the whitespace
between them kept as tokens of their own (maximal same-class runs). -/
def tokenize : Txt → List Txt
  | [] => []
  | c :: cs => tokGo [c] (jsIsSpace c) cs

/-- Edit cost of a diff script: the number of non-`unchanged` components. -/
def cost (l : List DiffChange) : Nat :=
  l.countP (fun d => !(d.kind == EKind.unchanged))

/-- Classic minimal-edit-script diff over token lists, fuelled so that it is
structurally recursive (each step consumes one fuel unit; fuel
`xs.length + ys.length` is always sufficient, see `difF_fuel`). -/
def difF : Nat → List Txt → List Txt → List DiffChange
  | 0, xs, ys =>
    xs.map (fun t => ⟨EKind.remove, t⟩) ++ ys.map (fun t => ⟨EKind.add, t⟩)
  | _ + 1, [], [] => []
  | fuel + 1, [], y :: ys => ⟨EKind.add, y⟩ :: difF fuel [] ys
  | fuel + 1, x :: xs, [] => ⟨EKind.remove, x⟩ :: difF fuel xs []
  | fuel + 1, x :: xs, y :: ys =>
    if x = y then ⟨EKind.unchanged, x⟩ :: difF fuel xs ys
    else
      let d1 := ⟨EKind.remove, x⟩ :: difF fuel xs (y :: ys)
      let d2 := ⟨EKind.add, y⟩ :: difF fuel (x :: xs) ys
      if cost d1 ≤ cost d2 then d1 else d2

/-- Component merger: jsdiff delivers each maximal changed region as one
removed component followed by one added component.  `accR`/`accA` hold the
removed/added text of the changed region currently being collected. -/
def emitRegion (accR accA : Txt) : List DiffChange :=
  (if accR = [] then [] else [⟨EKind.remove, accR⟩]) ++
  (if accA = [] then [] else [⟨EKind.add, accA⟩])

/-- Worker merging a raw edit script into jsdiff-style components. -/
def canonGo : List DiffChange → Txt → Txt → List DiffChange
  | [], accR, accA => emitRegion accR accA
  | d :: rest, accR, accA =>
    match d.kind with
    | EKind.remove => canonGo rest (accR ++ d.value) accA
    | EKind.add => canonGo rest accR (accA ++ d.value)
    | EKind.unchanged =>
      emitRegion accR accA ++ (d :: canonGo rest [] [])

/-- Modelled from the spec: the external `diffWordsWithSpace(original,
suggested)` call of `generateWordSuggestions`. -/
def diffWordsWithSpace (originalText suggestedText : Txt) : List DiffChange :=
  let xs := tokenize originalText
  let ys := tokenize suggestedText
  canonGo (difF (xs.length + ys.length) xs ys) [] []

/-! ## The diff generator (`generateWordSuggestions`) -/

/-- Suggestion kinds (`WordSuggestion.type` in the source). -/
inductive SKind where
  | replace | add | remove
deriving DecidableEq, Repr

/-- The source's `WordSuggestion` (the impure opaque `id` field is
omitted; `from`/`to` are reserved words in Lean and become
`fromPos`/`toPos`). -/
structure WordSuggestion where
  fromPos : Nat
  toPos : Nat
  originalText : Txt
  suggestedText : Txt
  explanation : Option Txt
  type : SKind
deriving DecidableEq, Repr

/-- The first-pass change records of `generateWordSuggestions`:
`{type, value, posInOriginal}`. -/
structure Entry where
  type : EKind
  value : Txt
  posInOriginal : Nat
deriving DecidableEq, Repr

/-- First pass of `generateWordSuggestions`: tag every diff component with
the running cursor over the original text (`posInOriginal`; `add` does not
advance it). -/
def firstPass : List DiffChange → Nat → List Entry
  | [], _ => []
  | d :: rest, pos =>
    match d.kind with
    | EKind.add => ⟨EKind.add, d.value, pos⟩ :: firstPass rest pos
    | EKind.remove => ⟨EKind.remove, d.value, pos⟩ :: firstPass rest (pos + d.value.length)
    | EKind.unchanged => ⟨EKind.unchanged, d.value, pos⟩ :: firstPass rest (pos + d.value.length)

/-- Second pass of `generateWordSuggestions` (the `while` loop): merge a
`remove` immediately followed by an `add` into one `replace` suggestion,
emit standalone `remove`/`add` suggestions, skip `unchanged`. -/
def secondPass (startPos : Nat) (explanation : Option Txt) : List Entry → List WordSuggestion
  | [] => []
  | current :: next :: rest2 =>
    match current.type with
    | EKind.remove =>
      if next.type = EKind.add then
        { fromPos := startPos + current.posInOriginal,
          toPos := startPos + current.posInOriginal + current.value.length,
          originalText := current.value,
          suggestedText := next.value,
          explanation := explanation,
          type := SKind.replace } :: secondPass startPos explanation rest2
      else
        { fromPos := startPos + current.posInOriginal,
          toPos := startPos + current.posInOriginal + current.value.length,
          originalText := current.value,
          suggestedText := [],
          explanation := explanation,
          type := SKind.remove } :: secondPass startPos explanation (next :: rest2)
    | EKind.add =>
      { fromPos := startPos + current.posInOriginal,
        toPos := startPos + current.posInOriginal,
        originalText := [],
        suggestedText := current.value,
        explanation := explanation,
        type := SKind.add } :: secondPass startPos explanation (next :: rest2)
    | EKind.unchanged => secondPass startPos explanation (next :: rest2)
  | [current] =>
    match current.type with
    | EKind.remove =>
      [{ fromPos := startPos + current.posInOriginal,
         toPos := startPos + current.posInOriginal + current.value.length,
         originalText := current.value,
         suggestedText := [],
         explanation := explanation,
         type := SKind.remove }]
    | EKind.add =>
      [{ fromPos := startPos + current.posInOriginal,
         toPos := startPos + current.posInOriginal,
         originalText := [],
         suggestedText := current.value,
         explanation := explanation,
         type := SKind.add }]
    | EKind.unchanged => []

/-- Port of `generateWordSuggestions(originalText, suggestedText, startPos,
explanation)`. -/
def generateWordSuggestions (originalText suggestedText : Txt) (startPos : Nat)
    (explanation : Option Txt) : List WordSuggestion :=
  secondPass startPos explanation (firstPass (diffWordsWithSpace originalText suggestedText) 0)

/-- Port of `generateSimpleReplacement`. -/
def generateSimpleReplacement (originalText suggestedText : Txt) (fromPos toPos : Nat)
    (explanation : Option Txt) : WordSuggestion :=
  { fromPos := fromPos, toPos := toPos, originalText := originalText,
    suggestedText := suggestedText, explanation := explanation, type := SKind.replace }

/-- Worker of `mergeAdjacentSuggestions` (the loop with its `current`
accumulator).  `next.from - current.to` truncates at `0` on `Nat` where the
JavaScript subtraction would be negative; both satisfy `gap <= 2`, so the
branch taken is identical. -/
def mergeGo (current : WordSuggestion) : List WordSuggestion → List WordSuggestion
  | [] => [current]
  | next :: rest =>
    if next.fromPos - current.toPos ≤ 2 ∧ current.type = next.type ∧
        current.explanation = next.explanation then
      mergeGo { current with
                toPos := next.toPos,
                originalText := current.originalText ++ next.originalText,
                suggestedText := current.suggestedText ++ next.suggestedText } rest
    else current :: mergeGo next rest

/-- Port of `mergeAdjacentSuggestions`. -/
def mergeAdjacentSuggestions : List WordSuggestion → List WordSuggestion
  | [] => []
  | s :: rest => mergeGo s rest

/-! ## The sentence-mode granularity splitter (`splitBySentences`) -/

/-- A sentence terminator (the regexp class `[.!?]`). -/
def isTerm (c : Char) : Bool := c = '.' || c = '!' || c = '?'

/-- One attempt of the regexp `[.!?]+(?:\s+|$)` at the head of `t`:
a maximal nonempty terminator run, then either a maximal nonempty
whitespace run or the end of the string.  Returns the matched length. -/
def sentenceMatchAt (t : Txt) : Option Nat :=
  let k := (t.takeWhile isTerm).length
  if k = 0 then none
  else
    let rest := t.drop k
    let w := (rest.takeWhile jsIsSpace).length
    if 0 < w then some (k + w)
    else if rest = [] then some k
    else none

/-- First match of `[.!?]+(?:\s+|$)` in `t`: `(index, length)`, scanning
left to right as the regexp engine does. -/
def sentenceFind : Txt → Option (Nat × Nat)
  | [] => none
  | c :: cs =>
    match sentenceMatchAt (c :: cs) with
    | some len => some (0, len)
    | none => (sentenceFind cs).map (fun p => (p.1 + 1, p.2))

/-- Worker of the sentence-splitting `exec` loops: each found boundary ends
the current sentence; a nonempty tail after the last boundary is a final
sentence.  Every match consumes at least one character, so fuel
`t.length` is always sufficient. -/
def splitSentGo : Nat → Txt → List Txt
  | 0, t => if t = [] then [] else [t]
  | fuel + 1, t =>
    match sentenceFind t with
    | none => if t = [] then [] else [t]
    | some (i, len) => t.take (i + len) :: splitSentGo fuel (t.drop (i + len))

/-- The sentence splitting performed on both texts by `splitBySentences`
(the `sentenceRegex.exec` loop). -/
def splitSentences (t : Txt) : List Txt := splitSentGo t.length t

/-- The per-pair loop of `splitBySentences`: walk the positionally paired
sentences, advancing `currentPos` by each original sentence's length and
emitting a `replace` for every pair whose trimmed sides differ. -/
def pairSentences (explanation : Option Txt) : List Txt → List Txt → Nat → List WordSuggestion
  | origSent :: os, suggSent :: ss, currentPos =>
    let rest := pairSentences explanation os ss (currentPos + origSent.length)
    if trimWS origSent ≠ trimWS suggSent then
      { fromPos := currentPos,
        toPos := currentPos + origSent.length,
        originalText := origSent,
        suggestedText := suggSent,
        explanation := explanation,
        type := SKind.replace } :: rest
    else rest
  | _, _, _ => []

/-- Port of `splitBySentences(originalText, aiSuggestion, from, to,
explanation)`. -/
def splitBySentences (originalText aiSuggestion : Txt) (fromPos toPos : Nat)
    (explanation : Option Txt) : List WordSuggestion :=
  let originalSentences := splitSentences originalText
  let suggestedSentences := splitSentences aiSuggestion
  if originalSentences.length ≠ suggestedSentences.length ∨ originalText.length < 50 then
    [generateSimpleReplacement originalText aiSuggestion fromPos toPos explanation]
  else
    let suggestions := pairSentences explanation originalSentences suggestedSentences fromPos
    if suggestions.length = 0 ∨ suggestions.length = 1 then
      [generateSimpleReplacement originalText aiSuggestion fromPos toPos explanation]
    else suggestions

/-! ## Text integration: validation, search, application -/

/-- The source's `TextChange` (`delete?` is spelled `delete`). -/
structure TextChange where
  fromPos : Nat
  toPos : Nat
  insert : Option Txt
  delete : Bool
deriving DecidableEq, Repr

/-- The source's `ValidationResult`. -/
structure ValidationResult where
  valid : Bool
  error : Option String
  actualText : Option Txt
  expectedText : Option Txt
deriving DecidableEq, Repr

/-- The source's `ApplyResult` (`newPosition` is the post-edit cursor). -/
structure ApplyResult where
  success : Bool
  error : Option String
  appliedCount : Option Nat
  newPosition : Option Nat
deriving DecidableEq, Repr

/-- Port of `validatePosition(editor, from, to, expectedText?)`: bounds
check, then (when an expectation is given) exact match, then
whitespace-normalised match, else a text-mismatch failure carrying both
texts.  The interpolated diagnostic strings of the source are modelled by
fixed messages. -/
def validatePosition (buf : Txt) (fromPos toPos : Nat) (expectedText : Option Txt) :
    ValidationResult :=
  if toPos > buf.length ∨ fromPos > toPos then
    { valid := false, error := some "Position out of bounds",
      actualText := none, expectedText := none }
  else
    match expectedText with
    | none => { valid := true, error := none, actualText := none, expectedText := none }
    | some expected =>
      let actualText := textBetween buf fromPos toPos
      if actualText = expected then
        { valid := true, error := none, actualText := some actualText, expectedText := none }
      else if normWS actualText = normWS expected then
        { valid := true, error := none, actualText := some actualText, expectedText := none }
      else
        { valid := false, error := some "Text mismatch - document may have changed",
          actualText := some actualText, expectedText := some expected }

/-- The JavaScript `hay.indexOf(needle)` for text: index of the first
occurrence (`indexOf("") = 0`). -/
def indexOfSub (needle : Txt) : Txt → Option Nat
  | [] => if needle.isPrefixOf ([] : Txt) then some 0 else none
  | c :: t =>
    if needle.isPrefixOf (c :: t) then some 0
    else (indexOfSub needle t).map (· + 1)

/-- The options record of `findTextPosition` (source defaults:
`caseSensitive = true, wholeWord = false, fuzzyMatch = true`). -/
structure FindOptions where
  caseSensitive : Bool
  wholeWord : Bool
  fuzzyMatch : Bool
deriving DecidableEq, Repr

/-- The source defaults for `FindOptions` (every call site of this engine
passes `{ fuzzyMatch: true }` or `{}`). -/
def defaultFind : FindOptions :=
  { caseSensitive := true, wholeWord := false, fuzzyMatch := true }

/-- The `isWordBoundary` predicate of `findTextPosition`: the probed string
matches `/[\s\n\r]/` or is empty. -/
def isWordBoundary (s : Txt) : Bool := s = [] || s.any jsIsSpace

/-- The conditional lower-casing of `findTextPosition`: both the needle
and the haystack are lower-cased when the search is case-insensitive. -/
def lowerIf (caseSensitive : Bool) (t : Txt) : Txt :=
  if caseSensitive then t else t.map Char.toLower

/-- The match-index computation of `findTextPosition`: try the exact
`indexOf` of the (conditionally lower-cased) needle in the haystack, then
(with `fuzzyMatch`) the whitespace-normalised needle against the
whitespace-collapsed haystack. -/
def findIndex (buf searchText : Txt) (opts : FindOptions) (startFrom : Nat) : Option Nat :=
  match indexOfSub (lowerIf opts.caseSensitive searchText)
      (lowerIf opts.caseSensitive (textBetween buf startFrom buf.length)) with
  | some i => some i
  | none =>
    if opts.fuzzyMatch then
      indexOfSub (normWS (lowerIf opts.caseSensitive searchText))
        (collapseWS (lowerIf opts.caseSensitive (textBetween buf startFrom buf.length)))
    else none

/-- The whole-word acceptance test of `findTextPosition`: the characters
adjacent to the candidate range (a space when at a buffer edge) must both
be word boundaries. -/
def boundaryOk (buf : Txt) (f t : Nat) : Bool :=
  let beforeChar := if 0 < f then textBetween buf (f - 1) f else [' ']
  let afterChar := if t < buf.length then textBetween buf t (t + 1) else [' ']
  isWordBoundary beforeChar && isWordBoundary afterChar

/-- Fuelled body of `findTextPosition`.  One fuel unit is spent per
whole-word retry; retries advance `startFrom` by at least one when the
needle is nonempty, so `buf.length + 2` fuel is always sufficient
(`findTextAux_fuel`).  The JavaScript original recurses unconditionally and
does not terminate on an empty needle with a failing boundary; the fuelled
model returns `none` on that dead path. -/
def findTextAux (buf searchText : Txt) (opts : FindOptions) :
    Nat → Nat → Option (Nat × Nat)
  | 0, _ => none
  | fuel + 1, startFrom =>
    match findIndex buf searchText opts startFrom with
    | none => none
    | some i =>
      let f := startFrom + i
      let t := f + searchText.length
      if opts.wholeWord then
        if boundaryOk buf f t then some (f, t)
        else findTextAux buf searchText opts fuel t
      else some (f, t)

/-- Port of `findTextPosition(editor, searchText, startFrom, options)`:
exact substring search of the buffer from `startFrom`; on failure and with
`fuzzyMatch`, a retry on the whitespace-normalised needle against the
whitespace-collapsed haystack; a whole-word constraint rejects matches not
bounded by whitespace or a buffer edge and searches again just past them. -/
def findTextPosition (buf searchText : Txt) (startFrom : Nat) (opts : FindOptions) :
    Option (Nat × Nat) :=
  findTextAux buf searchText opts (buf.length + 2) startFrom

/-- One ProseMirror mutation step `tr.delete(from, to)`: fails (throws in
the source, caught by its `try/catch`) when the range is outside the
current document. -/
def trDelete (buf : Txt) (fromPos toPos : Nat) : Except String Txt :=
  if fromPos ≤ toPos ∧ toPos ≤ buf.length then
    Except.ok (buf.take fromPos ++ buf.drop toPos)
  else Except.error "tr range error"

/-- One ProseMirror mutation step `tr.insert(from, text)`: fails when the
position is outside the current document. -/
def trInsert (buf : Txt) (fromPos : Nat) (ins : Txt) : Except String Txt :=
  if fromPos ≤ buf.length then
    Except.ok (buf.take fromPos ++ ins ++ buf.drop fromPos)
  else Except.error "tr range error"

/-- The ProseMirror `tr.replaceWith(from, to, text)` used by
`applySingleChange`: a single-step range replacement, failing outside the
document. -/
def trReplaceWith (buf : Txt) (fromPos toPos : Nat) (ins : Txt) : Except String Txt :=
  if fromPos ≤ toPos ∧ toPos ≤ buf.length then
    Except.ok (splice buf fromPos toPos ins)
  else Except.error "tr range error"

/-- Port of `applySingleChange(editor, change, validate)`: optional bounds
validation, then one atomic `replaceWith` when there is nonempty text to
insert, else a plain delete when `delete` is set; the `catch` branch turns
a step failure into a failed result with the buffer untouched. -/
def applySingleChange (buf : Txt) (change : TextChange) (validate : Bool) :
    ApplyResult × Txt :=
  if validate ∧ ¬(validatePosition buf change.fromPos change.toPos none).valid then
    ({ success := false, error := some "validation failed",
       appliedCount := none, newPosition := none }, buf)
  else
    let step : Except String Txt :=
      match change.insert with
      | some ins =>
        if 0 < ins.length then trReplaceWith buf change.fromPos change.toPos ins
        else if change.delete then trDelete buf change.fromPos change.toPos
        else Except.ok buf
      | none =>
        if change.delete then trDelete buf change.fromPos change.toPos
        else Except.ok buf
    match step with
    | Except.ok buf2 =>
      let newPosition :=
        match change.insert with
        | some ins => change.fromPos + ins.length
        | none => change.fromPos
      ({ success := true, error := none, appliedCount := none,
         newPosition := some newPosition }, buf2)
    | Except.error e =>
      ({ success := false, error := some e, appliedCount := none, newPosition := none }, buf)

/-- Insertion step of the model of `[...changes].sort((a, b) => b.from - a.from)`. -/
def insertDesc (x : TextChange) : List TextChange → List TextChange
  | [] => [x]
  | y :: ys => if y.fromPos ≤ x.fromPos then x :: y :: ys else y :: insertDesc x ys

/-- Model of the stable JavaScript `Array.prototype.sort` with comparator
`(a, b) => b.from - a.from`: sort by descending `from`, elements with equal
`from` keeping their input order. -/
def sortDesc : List TextChange → List TextChange
  | [] => []
  | x :: xs => insertDesc x (sortDesc xs)

/-- The transaction-building loop body of `applyChangesAtomic`: delete the
range when `delete` is set or a replacement spans a nonempty range, then
insert nonempty replacement text. -/
def atomicStep (buf : Txt) (change : TextChange) : Except String Txt := do
  let buf1 ←
    if change.delete ∨ (change.insert.isSome ∧ change.fromPos ≠ change.toPos) then
      trDelete buf change.fromPos change.toPos
    else Except.ok buf
  match change.insert with
  | some ins => if 0 < ins.length then trInsert buf1 change.fromPos ins else Except.ok buf1
  | none => Except.ok buf1

/-- Port of `applyChangesAtomic(editor, changes)`: sort in reverse document
order, validate every range against the pre-transaction document, build one
transaction (no dispatch happens if any step fails), and dispatch it as a
single state transition. -/
def applyChangesAtomic (buf : Txt) (changes : List TextChange) : ApplyResult × Txt :=
  if changes.length = 0 then
    ({ success := true, error := none, appliedCount := some 0, newPosition := none }, buf)
  else
    let sortedChanges := sortDesc changes
    if sortedChanges.all (fun c => (validatePosition buf c.fromPos c.toPos none).valid) then
      match sortedChanges.foldlM atomicStep buf with
      | Except.ok buf2 =>
        ({ success := true, error := none, appliedCount := some changes.length,
           newPosition := none }, buf2)
      | Except.error e =>
        ({ success := false, error := some e, appliedCount := some 0,
           newPosition := none }, buf)
    else
      ({ success := false, error := some "Validation failed",
         appliedCount := some 0, newPosition := none }, buf)

/-- Port of `suggestionToChange(suggestion)`. -/
def suggestionToChange (suggestion : WordSuggestion) : TextChange :=
  match suggestion.type with
  | SKind.add =>
    { fromPos := suggestion.fromPos, toPos := suggestion.fromPos,
      insert := some suggestion.suggestedText, delete := false }
  | SKind.remove =>
    { fromPos := suggestion.fromPos, toPos := suggestion.toPos,
      insert := none, delete := true }
  | SKind.replace =>
    { fromPos := suggestion.fromPos, toPos := suggestion.toPos,
      insert := some suggestion.suggestedText, delete := false }

/-- Port of `applySuggestion(editor, suggestion)`: validate at the stored
position against `originalText`; on failure with a nonempty `originalText`,
relocate by content search (failing with an error result when the text is
nowhere to be found); then convert and apply without re-validation. -/
def applySuggestion (buf : Txt) (suggestion : WordSuggestion) : ApplyResult × Txt :=
  let validation :=
    validatePosition buf suggestion.fromPos suggestion.toPos (some suggestion.originalText)
  let finalSuggestion :=
    if ¬validation.valid ∧ suggestion.originalText ≠ [] then
      match findTextPosition buf suggestion.originalText 0 defaultFind with
      | none => none
      | some p => some { suggestion with fromPos := p.1, toPos := p.2 }
    else some suggestion
  match finalSuggestion with
  | none =>
    ({ success := false, error := some "Could not find text",
       appliedCount := none, newPosition := none }, buf)
  | some fs => applySingleChange buf (suggestionToChange fs) false

/-- The validate-and-relocate loop of `applySuggestionsAtomic`: every
suggestion is validated against the (unmutated) buffer; an invalid one with
empty `originalText`, or whose text cannot be found, aborts with an error;
otherwise it is kept, relocated if needed. -/
def relocateAll (buf : Txt) : List WordSuggestion → Except String (List WordSuggestion)
  | [] => Except.ok []
  | suggestion :: rest =>
    let validation :=
      validatePosition buf suggestion.fromPos suggestion.toPos (some suggestion.originalText)
    if validation.valid then
      (relocateAll buf rest).map (fun l => suggestion :: l)
    else if suggestion.originalText = [] then
      Except.error "Cannot recover suggestion: no original text"
    else
      match findTextPosition buf suggestion.originalText 0 defaultFind with
      | none => Except.error "Could not find text for suggestion"
      | some p =>
        (relocateAll buf rest).map
          (fun l => { suggestion with fromPos := p.1, toPos := p.2 } :: l)

/-- Port of `applySuggestionsAtomic(editor, suggestions)`: validate or
relocate every suggestion first (any unrecoverable one aborts the whole
batch with the buffer untouched), then convert all and apply atomically. -/
def applySuggestionsAtomic (buf : Txt) (suggestions : List WordSuggestion) :
    ApplyResult × Txt :=
  match relocateAll buf suggestions with
  | Except.error e =>
    ({ success := false, error := some e, appliedCount := some 0,
       newPosition := none }, buf)
  | Except.ok validatedSuggestions =>
    applyChangesAtomic buf (validatedSuggestions.map suggestionToChange)

/-! ## Specification-side helper definitions used by the theorems -/

/-- The original text a diff script describes: concatenation of the
`remove` and `unchanged` component values, in order. -/
def originalOf : List DiffChange → Txt
  | [] => []
  | d :: rest => (if d.kind = EKind.add then [] else d.value) ++ originalOf rest

/-- The suggested text a diff script describes: concatenation of the `add`
and `unchanged` component values, in order. -/
def suggestedOf : List DiffChange → Txt
  | [] => []
  | d :: rest => (if d.kind = EKind.remove then [] else d.value) ++ suggestedOf rest

/-- Fused form of `secondPass (firstPass ds 0)` used for induction: the
suggestions generated from the diff script `ds` when the running cursor
over the original text is at `pos` (theorem `secondPass_firstPass`). -/
def suggsOf (startPos : Nat) (explanation : Option Txt) :
    List DiffChange → Nat → List WordSuggestion
  | [], _ => []
  | d :: d2 :: rest2, pos =>
    match d.kind with
    | EKind.unchanged => suggsOf startPos explanation (d2 :: rest2) (pos + d.value.length)
    | EKind.add =>
      { fromPos := startPos + pos, toPos := startPos + pos,
        originalText := [], suggestedText := d.value,
        explanation := explanation, type := SKind.add } ::
        suggsOf startPos explanation (d2 :: rest2) pos
    | EKind.remove =>
      if d2.kind = EKind.add then
        { fromPos := startPos + pos, toPos := startPos + pos + d.value.length,
          originalText := d.value, suggestedText := d2.value,
          explanation := explanation, type := SKind.replace } ::
          suggsOf startPos explanation rest2 (pos + d.value.length)
      else
        { fromPos := startPos + pos, toPos := startPos + pos + d.value.length,
          originalText := d.value, suggestedText := [],
          explanation := explanation, type := SKind.remove } ::
          suggsOf startPos explanation (d2 :: rest2) (pos + d.value.length)
  | [d], pos =>
    match d.kind with
    | EKind.unchanged => []
    | EKind.add =>
      [{ fromPos := startPos + pos, toPos := startPos + pos,
         originalText := [], suggestedText := d.value,
         explanation := explanation, type := SKind.add }]
    | EKind.remove =>
      [{ fromPos := startPos + pos, toPos := startPos + pos + d.value.length,
         originalText := d.value, suggestedText := [],
         explanation := explanation, type := SKind.remove }]

/-- Canonical diff-component shape, as produced by the modelled
`diffWordsWithSpace`: nonempty values, maximal changed regions of the form
`remove`, `add` or `remove`-then-`add`, consecutive regions separated by at
least one `unchanged` component.  The index is `true` when a changed region
may start immediately, `false` directly after a region. -/
inductive CO : Bool → List DiffChange → Prop where
  | nil (b : Bool) : CO b []
  | unch (b : Bool) (v : Txt) (rest : List DiffChange) :
      v ≠ [] → CO true rest → CO b (⟨EKind.unchanged, v⟩ :: rest)
  | rem (v : Txt) (rest : List DiffChange) :
      v ≠ [] → CO false rest → CO true (⟨EKind.remove, v⟩ :: rest)
  | add (v : Txt) (rest : List DiffChange) :
      v ≠ [] → CO false rest → CO true (⟨EKind.add, v⟩ :: rest)
  | remadd (v w : Txt) (rest : List DiffChange) :
      v ≠ [] → w ≠ [] → CO false rest →
      CO true (⟨EKind.remove, v⟩ :: ⟨EKind.add, w⟩ :: rest)

/-- Strict separation of a suggestion list: every suggestion starts at or
after the bound, has `fromPos ≤ toPos`, and ends strictly before the next
one starts. -/
def SepFrom : Nat → List WordSuggestion → Prop
  | _, [] => True
  | lo, s :: rest => lo ≤ s.fromPos ∧ s.fromPos ≤ s.toPos ∧ SepFrom (s.toPos + 1) rest

/-- Lower bound with strictly increasing `fromPos` on a change list. -/
def AscFrom : Nat → List TextChange → Prop
  | _, [] => True
  | lo, c :: rest => lo ≤ c.fromPos ∧ AscFrom (c.fromPos + 1) rest

/-- The data-model invariant of a `Suggestion` (spec §3): `from <= to`,
`add` suggestions are zero-width, `remove` suggestions carry no
replacement text. -/
def SuggInv (s : WordSuggestion) : Prop :=
  s.fromPos ≤ s.toPos ∧
  (s.type = SKind.add → s.fromPos = s.toPos) ∧
  (s.type = SKind.remove → s.suggestedText = [])

/-- Cumulative start offsets of a sentence list laid out from `base`. -/
def prefixStarts (base : Nat) : List Txt → List Nat
  | [] => []
  | o :: os => base :: prefixStarts (base + o.length) os

/-- Specification-side formulation of the sentence-pairing loop: pair the
sentences positionally, attach each pair's start offset, keep the pairs
whose trimmed sides differ, and emit one `replace` per kept pair. -/
def pairedSpec (explanation : Option Txt) (os ss : List Txt) (base : Nat) :
    List WordSuggestion :=
  ((prefixStarts base os).zip (os.zip ss)).filterMap (fun t =>
    if trimWS t.2.1 ≠ trimWS t.2.2 then
      some { fromPos := t.1, toPos := t.1 + t.2.1.length,
             originalText := t.2.1, suggestedText := t.2.2,
             explanation := explanation, type := SKind.replace }
    else none)

/-! ## Basic slicing lemmas -/

theorem drop_app (pre l : Txt) : (pre ++ l).drop pre.length = l := by
  simp

theorem take_app (pre l : Txt) : (pre ++ l).take pre.length = pre := by
  simp

theorem textBetween_at (pre v rest : Txt) :
    textBetween (pre ++ v ++ rest) pre.length (pre.length + v.length) = v := by
  unfold textBetween
  rw [List.append_assoc, drop_app, Nat.add_sub_cancel_left]
  simp

theorem splice_at (pre mid rest ins : Txt) :
    splice (pre ++ mid ++ rest) pre.length (pre.length + mid.length) ins =
      pre ++ ins ++ rest := by
  unfold splice
  have h1 : (pre ++ mid ++ rest).take pre.length = pre := by
    rw [List.append_assoc, take_app]
  have h2 : (pre ++ mid ++ rest).drop (pre.length + mid.length) = rest := by
    have : pre.length + mid.length = (pre ++ mid).length := (List.length_append _ _).symm
    rw [this, drop_app]
  rw [h1, h2, List.append_assoc]

theorem splice_self (buf : Txt) (a b : Nat) (hab : a ≤ b) (_hb : b ≤ buf.length) :
    splice buf a b (textBetween buf a b) = buf := by
  unfold splice textBetween
  have hdrop : (buf.drop a).take (b - a) ++ buf.drop b = buf.drop a := by
    have h : buf.drop b = (buf.drop a).drop (b - a) := by
      rw [List.drop_drop]
      congr 1
      omega
    rw [h, List.take_append_drop]
  rw [List.append_assoc, hdrop, List.take_append_drop]

theorem trDelete_at (pre mid rest : Txt) :
    trDelete (pre ++ mid ++ rest) pre.length (pre.length + mid.length) =
      Except.ok (pre ++ rest) := by
  unfold trDelete
  have hb : pre.length + mid.length ≤ (pre ++ mid ++ rest).length := by
    simp only [List.length_append]
    omega
  rw [if_pos ⟨Nat.le_add_right _ _, hb⟩]
  have h1 : (pre ++ mid ++ rest).take pre.length = pre := by
    rw [List.append_assoc, take_app]
  have h2 : (pre ++ mid ++ rest).drop (pre.length + mid.length) = rest := by
    have : pre.length + mid.length = (pre ++ mid).length := (List.length_append _ _).symm
    rw [this, drop_app]
  rw [h1, h2]

theorem trInsert_at (pre rest ins : Txt) :
    trInsert (pre ++ rest) pre.length ins = Except.ok (pre ++ ins ++ rest) := by
  unfold trInsert
  rw [if_pos (by simp : pre.length ≤ (pre ++ rest).length)]
  rw [take_app, drop_app]

/-! ## Reconstruction invariants of the modelled diff -/

theorem originalOf_append (l1 l2 : List DiffChange) :
    originalOf (l1 ++ l2) = originalOf l1 ++ originalOf l2 := by
  induction l1 with
  | nil => rfl
  | cons d rest ih => simp [originalOf, ih]

theorem suggestedOf_append (l1 l2 : List DiffChange) :
    suggestedOf (l1 ++ l2) = suggestedOf l1 ++ suggestedOf l2 := by
  induction l1 with
  | nil => rfl
  | cons d rest ih => simp [suggestedOf, ih]

theorem originalOf_map_remove (xs : List Txt) :
    originalOf (xs.map (fun t => ⟨EKind.remove, t⟩)) = xs.flatten := by
  induction xs with
  | nil => rfl
  | cons x rest ih => simp [originalOf, ih, EKind]

theorem originalOf_map_add (ys : List Txt) :
    originalOf (ys.map (fun t => ⟨EKind.add, t⟩)) = [] := by
  induction ys with
  | nil => rfl
  | cons y rest ih => simp [originalOf, ih]

theorem suggestedOf_map_remove (xs : List Txt) :
    suggestedOf (xs.map (fun t => ⟨EKind.remove, t⟩)) = [] := by
  induction xs with
  | nil => rfl
  | cons x rest ih => simp [suggestedOf, ih]

theorem suggestedOf_map_add (ys : List Txt) :
    suggestedOf (ys.map (fun t => ⟨EKind.add, t⟩)) = ys.flatten := by
  induction ys with
  | nil => rfl
  | cons y rest ih => simp [suggestedOf, ih]

theorem difF_originalOf : ∀ (fuel : Nat) (xs ys : List Txt),
    originalOf (difF fuel xs ys) = xs.flatten
  | 0, xs, ys => by
    simp [difF, originalOf_append, originalOf_map_remove, originalOf_map_add]
  | _ + 1, [], [] => by simp [difF, originalOf]
  | fuel + 1, [], y :: ys => by
    simp [difF, originalOf, difF_originalOf fuel [] ys]
  | fuel + 1, x :: xs, [] => by
    simp [difF, originalOf, difF_originalOf fuel xs []]
  | fuel + 1, x :: xs, y :: ys => by
    by_cases hxy : x = y
    · simp [difF, hxy, originalOf, difF_originalOf fuel xs ys]
    · simp only [difF, if_neg hxy]
      by_cases hc : cost (⟨EKind.remove, x⟩ :: difF fuel xs (y :: ys)) ≤
          cost (⟨EKind.add, y⟩ :: difF fuel (x :: xs) ys)
      · simp [hc, originalOf, difF_originalOf fuel xs (y :: ys)]
      · simp [hc, originalOf, difF_originalOf fuel (x :: xs) ys]

theorem difF_suggestedOf : ∀ (fuel : Nat) (xs ys : List Txt),
    suggestedOf (difF fuel xs ys) = ys.flatten
  | 0, xs, ys => by
    simp [difF, suggestedOf_append, suggestedOf_map_remove, suggestedOf_map_add]
  | _ + 1, [], [] => by simp [difF, suggestedOf]
  | fuel + 1, [], y :: ys => by
    simp [difF, suggestedOf, difF_suggestedOf fuel [] ys]
  | fuel + 1, x :: xs, [] => by
    simp [difF, suggestedOf, difF_suggestedOf fuel xs []]
  | fuel + 1, x :: xs, y :: ys => by
    by_cases hxy : x = y
    · simp [difF, hxy, suggestedOf, difF_suggestedOf fuel xs ys]
    · simp only [difF, if_neg hxy]
      by_cases hc : cost (⟨EKind.remove, x⟩ :: difF fuel xs (y :: ys)) ≤
          cost (⟨EKind.add, y⟩ :: difF fuel (x :: xs) ys)
      · simp [hc, suggestedOf, difF_suggestedOf fuel xs (y :: ys)]
      · simp [hc, suggestedOf, difF_suggestedOf fuel (x :: xs) ys]

theorem difF_nonempty : ∀ (fuel : Nat) (xs ys : List Txt),
    (∀ t ∈ xs, t ≠ []) → (∀ t ∈ ys, t ≠ []) →
    ∀ d ∈ difF fuel xs ys, d.value ≠ []
  | 0, xs, ys => by
    intro hx hy d hd
    rcases List.mem_append.1 hd with h | h
    · rcases List.mem_map.1 h with ⟨t, ht, rfl⟩
      exact hx t ht
    · rcases List.mem_map.1 h with ⟨t, ht, rfl⟩
      exact hy t ht
  | _ + 1, [], [] => by intro _ _ d hd; simp [difF] at hd
  | fuel + 1, [], y :: ys => by
    intro hx hy d hd
    simp only [difF, List.mem_cons] at hd
    rcases hd with rfl | hd
    · exact hy y (by simp)
    · exact difF_nonempty fuel [] ys hx (fun t ht => hy t (by simp [ht])) d hd
  | fuel + 1, x :: xs, [] => by
    intro hx hy d hd
    simp only [difF, List.mem_cons] at hd
    rcases hd with rfl | hd
    · exact hx x (by simp)
    · exact difF_nonempty fuel xs [] (fun t ht => hx t (by simp [ht])) hy d hd
  | fuel + 1, x :: xs, y :: ys => by
    intro hx hy d hd
    have hxs : ∀ t ∈ xs, t ≠ [] := fun t ht => hx t (by simp [ht])
    have hys : ∀ t ∈ ys, t ≠ [] := fun t ht => hy t (by simp [ht])
    by_cases hxy : x = y
    · simp only [difF, if_pos hxy, List.mem_cons] at hd
      rcases hd with rfl | hd
      · exact hx x (by simp)
      · exact difF_nonempty fuel xs ys hxs hys d hd
    · simp only [difF, if_neg hxy] at hd
      by_cases hc : cost (⟨EKind.remove, x⟩ :: difF fuel xs (y :: ys)) ≤
          cost (⟨EKind.add, y⟩ :: difF fuel (x :: xs) ys)
      · rw [if_pos hc] at hd
        rcases List.mem_cons.1 hd with rfl | hd
        · exact hx x (by simp)
        · exact difF_nonempty fuel xs (y :: ys) hxs hy d hd
      · rw [if_neg hc] at hd
        rcases List.mem_cons.1 hd with rfl | hd
        · exact hy y (by simp)
        · exact difF_nonempty fuel (x :: xs) ys hx hys d hd

theorem difF_self : ∀ (fuel : Nat) (xs : List Txt), xs.length ≤ fuel →
    difF fuel xs xs = xs.map (fun t => ⟨EKind.unchanged, t⟩)
  | 0, [], _ => by simp [difF]
  | _ + 1, [], _ => by simp [difF]
  | 0, x :: xs, h => by simp at h
  | fuel + 1, x :: xs, h => by
    have ih := difF_self fuel xs (Nat.le_of_succ_le_succ (by simpa using h))
    simp [difF, ih]

/-! ## Tokenizer lemmas -/

theorem tokGo_flatten : ∀ (cs cur : Txt) (b : Bool), (tokGo cur b cs).flatten = cur ++ cs
  | [], cur, b => by simp [tokGo]
  | c :: cs, cur, b => by
    by_cases h : jsIsSpace c = b
    · simp [tokGo, h, tokGo_flatten cs (cur ++ [c]) b]
    · simp [tokGo, h, tokGo_flatten cs [c] (jsIsSpace c)]

theorem tokenize_flatten (s : Txt) : (tokenize s).flatten = s := by
  cases s with
  | nil => rfl
  | cons c cs => simpa using tokGo_flatten cs [c] (jsIsSpace c)

theorem tokGo_nonempty : ∀ (cs cur : Txt) (b : Bool), cur ≠ [] →
    ∀ t ∈ tokGo cur b cs, t ≠ []
  | [], cur, b => by
    intro hcur t ht
    simp [tokGo] at ht
    simpa [ht] using hcur
  | c :: cs, cur, b => by
    intro hcur t ht
    by_cases h : jsIsSpace c = b
    · rw [tokGo, if_pos h] at ht
      exact tokGo_nonempty cs (cur ++ [c]) b (by simp) t ht
    · rw [tokGo, if_neg h] at ht
      rcases List.mem_cons.1 ht with rfl | ht
      · exact hcur
      · exact tokGo_nonempty cs [c] (jsIsSpace c) (by simp) t ht

theorem tokenize_nonempty (s : Txt) : ∀ t ∈ tokenize s, t ≠ [] := by
  cases s with
  | nil => intro t ht; simp [tokenize] at ht
  | cons c cs => exact tokGo_nonempty cs [c] (jsIsSpace c) (by simp)

/-! ## Component-merger lemmas -/

theorem emitRegion_originalOf (r a : Txt) : originalOf (emitRegion r a) = r := by
  unfold emitRegion
  by_cases hr : r = [] <;> by_cases ha : a = [] <;>
    simp [hr, ha, originalOf, originalOf_append]

theorem emitRegion_suggestedOf (r a : Txt) : suggestedOf (emitRegion r a) = a := by
  unfold emitRegion
  by_cases hr : r = [] <;> by_cases ha : a = [] <;>
    simp [hr, ha, suggestedOf, suggestedOf_append]

theorem canonGo_originalOf : ∀ (l : List DiffChange) (r a : Txt),
    originalOf (canonGo l r a) = r ++ originalOf l
  | [], r, a => by simp [canonGo, emitRegion_originalOf, originalOf]
  | d :: rest, r, a => by
    rcases d with ⟨k, v⟩
    cases k with
    | remove =>
      simp [canonGo, canonGo_originalOf rest (r ++ v) a, originalOf]
    | add =>
      simp [canonGo, canonGo_originalOf rest r (a ++ v), originalOf]
    | unchanged =>
      simp [canonGo, originalOf_append, emitRegion_originalOf, originalOf,
        canonGo_originalOf rest [] []]

theorem canonGo_suggestedOf : ∀ (l : List DiffChange) (r a : Txt),
    suggestedOf (canonGo l r a) = a ++ suggestedOf l
  | [], r, a => by simp [canonGo, emitRegion_suggestedOf, suggestedOf]
  | d :: rest, r, a => by
    rcases d with ⟨k, v⟩
    cases k with
    | remove =>
      simp [canonGo, canonGo_suggestedOf rest (r ++ v) a, suggestedOf]
    | add =>
      simp [canonGo, canonGo_suggestedOf rest r (a ++ v), suggestedOf]
    | unchanged =>
      simp [canonGo, suggestedOf_append, emitRegion_suggestedOf, suggestedOf,
        canonGo_suggestedOf rest [] []]

theorem CO_weaken {l : List DiffChange} (h : CO false l) (b : Bool) : CO b l := by
  cases h with
  | nil => exact CO.nil b
  | unch _ v rest hv hrest => exact CO.unch b v rest hv hrest

theorem emitRegion_CO {rest : List DiffChange} (r a : Txt) (h : CO false rest) :
    CO true (emitRegion r a ++ rest) := by
  unfold emitRegion
  by_cases hr : r = [] <;> by_cases ha : a = [] <;> simp [hr, ha]
  · exact CO_weaken h true
  · exact CO.add a rest ha h
  · exact CO.rem r rest hr h
  · exact CO.remadd r a rest hr ha h

theorem canonGo_CO : ∀ (l : List DiffChange) (r a : Txt),
    (∀ d ∈ l, d.value ≠ []) → CO true (canonGo l r a)
  | [], r, a => by
    intro _
    simpa [canonGo] using emitRegion_CO r a (CO.nil false)
  | d :: rest, r, a => by
    intro hne
    have hrest : ∀ x ∈ rest, x.value ≠ [] := fun x hx => hne x (by simp [hx])
    rcases d with ⟨k, v⟩
    cases k with
    | remove => simpa [canonGo] using canonGo_CO rest (r ++ v) a hrest
    | add => simpa [canonGo] using canonGo_CO rest r (a ++ v) hrest
    | unchanged =>
      have hv : v ≠ [] := hne ⟨EKind.unchanged, v⟩ (by simp)
      have hco : CO false (⟨EKind.unchanged, v⟩ :: canonGo rest [] []) :=
        CO.unch false v _ hv (canonGo_CO rest [] [] hrest)
      simpa [canonGo] using emitRegion_CO r a hco

theorem diffWordsWithSpace_originalOf (o s : Txt) :
    originalOf (diffWordsWithSpace o s) = o := by
  unfold diffWordsWithSpace
  rw [canonGo_originalOf, difF_originalOf, tokenize_flatten]
  rfl

theorem diffWordsWithSpace_suggestedOf (o s : Txt) :
    suggestedOf (diffWordsWithSpace o s) = s := by
  unfold diffWordsWithSpace
  rw [canonGo_suggestedOf, difF_suggestedOf, tokenize_flatten]
  rfl

theorem diffWordsWithSpace_CO (o s : Txt) : CO true (diffWordsWithSpace o s) := by
  unfold diffWordsWithSpace
  exact canonGo_CO _ [] []
    (difF_nonempty _ _ _ (tokenize_nonempty o) (tokenize_nonempty s))

/-! ## The generator in fused form -/

theorem secondPass_firstPass (sp : Nat) (e : Option Txt) :
    ∀ (ds : List DiffChange) (pos : Nat),
      secondPass sp e (firstPass ds pos) = suggsOf sp e ds pos
  | [], _ => rfl
  | [d], pos => by
    rcases d with ⟨k, v⟩
    cases k <;> simp [firstPass, secondPass, suggsOf]
  | d :: d2 :: rest, pos => by
    rcases d with ⟨k, v⟩
    rcases d2 with ⟨k2, w⟩
    have ih2 := secondPass_firstPass sp e (⟨k2, w⟩ :: rest)
    cases k with
    | unchanged =>
      cases k2 <;>
        simp [firstPass, secondPass, suggsOf, ← ih2]
    | add =>
      cases k2 <;>
        simp [firstPass, secondPass, suggsOf, ← ih2]
    | remove =>
      cases k2 with
      | add =>
        have ih := secondPass_firstPass sp e rest (pos + v.length)
        simp [firstPass, secondPass, suggsOf, ← ih]
      | remove =>
        simp [firstPass, secondPass, suggsOf, ← ih2]
      | unchanged =>
        simp [firstPass, secondPass, suggsOf, ← ih2]

theorem generateWordSuggestions_suggsOf (o s : Txt) (sp : Nat) (e : Option Txt) :
    generateWordSuggestions o s sp e = suggsOf sp e (diffWordsWithSpace o s) 0 := by
  unfold generateWordSuggestions
  exact secondPass_firstPass sp e _ 0

/-! ## Invariants of generated suggestions -/

theorem suggsOf_inv (sp : Nat) (e : Option Txt) :
    ∀ (ds : List DiffChange) (pos : Nat), ∀ sg ∈ suggsOf sp e ds pos, SuggInv sg
  | [], _ => by intro sg h; simp [suggsOf] at h
  | [d], pos => by
    intro sg h
    rcases d with ⟨k, v⟩
    cases k <;> simp [suggsOf] at h <;>
      simp [h, SuggInv, Nat.le_add_right]
  | d :: d2 :: rest, pos => by
    intro sg h
    rcases d with ⟨k, v⟩
    cases k with
    | unchanged =>
      rw [suggsOf] at h
      exact suggsOf_inv sp e (d2 :: rest) (pos + v.length) sg h
    | add =>
      rw [suggsOf] at h
      rcases List.mem_cons.1 h with rfl | h
      · simp [SuggInv]
      · exact suggsOf_inv sp e (d2 :: rest) pos sg h
    | remove =>
      rw [suggsOf] at h
      by_cases h2 : d2.kind = EKind.add
      · rw [if_pos h2] at h
        rcases List.mem_cons.1 h with rfl | h
        · simp [SuggInv, Nat.le_add_right]
        · exact suggsOf_inv sp e rest (pos + v.length) sg h
      · rw [if_neg h2] at h
        rcases List.mem_cons.1 h with rfl | h
        · simp [SuggInv, Nat.le_add_right]
        · exact suggsOf_inv sp e (d2 :: rest) (pos + v.length) sg h

theorem textBetween_nil (buf : Txt) (a : Nat) : textBetween buf a a = [] := by
  simp [textBetween]

/-- Every generated suggestion's stored range carries exactly its
`originalText` inside any buffer that holds the diffed original text at
offset `sp + pos`, and stays inside that original region. -/
theorem suggsOf_textAt (sp : Nat) (e : Option Txt) :
    ∀ (ds : List DiffChange) (pos : Nat) (pre post : Txt),
      pre.length = sp + pos →
      ∀ sg ∈ suggsOf sp e ds pos,
        textBetween (pre ++ originalOf ds ++ post) sg.fromPos sg.toPos = sg.originalText ∧
        sg.toPos ≤ pre.length + (originalOf ds).length
  | [], _, _, _ => by intro _ sg h; simp [suggsOf] at h
  | [d], pos, pre, post => by
    intro hpre sg h
    rcases d with ⟨k, v⟩
    cases k with
    | unchanged => simp [suggsOf] at h
    | add =>
      simp only [suggsOf, List.mem_singleton] at h
      subst h
      constructor
      · simpa [← hpre] using textBetween_nil (pre ++ originalOf [⟨EKind.add, v⟩] ++ post) pre.length
      · simp [hpre]
    | remove =>
      simp only [suggsOf, List.mem_singleton] at h
      subst h
      have hor : originalOf [(⟨EKind.remove, v⟩ : DiffChange)] = v ++ [] := by
        simp [originalOf]
      constructor
      · simp only [hor, ← hpre]
        simpa using textBetween_at pre v post
      · simp [hor, hpre]
  | d :: d2 :: rest, pos, pre, post => by
    intro hpre sg h
    rcases d with ⟨k, v⟩
    cases k with
    | unchanged =>
      rw [suggsOf] at h
      have hlen : (pre ++ v).length = sp + (pos + v.length) := by
        simp [hpre]; omega
      have ih := suggsOf_textAt sp e (d2 :: rest) (pos + v.length) (pre ++ v) post hlen sg h
      have hb : pre ++ originalOf (⟨EKind.unchanged, v⟩ :: d2 :: rest) ++ post =
          (pre ++ v) ++ originalOf (d2 :: rest) ++ post := by
        simp [originalOf]
      have hl : pre.length + (originalOf (⟨EKind.unchanged, v⟩ :: d2 :: rest)).length =
          (pre ++ v).length + (originalOf (d2 :: rest)).length := by
        simp [originalOf]; omega
      rw [hb, hl]
      exact ih
    | add =>
      rw [suggsOf] at h
      have hor : originalOf (⟨EKind.add, v⟩ :: d2 :: rest) = originalOf (d2 :: rest) := by
        simp [originalOf]
      rcases List.mem_cons.1 h with rfl | h
      · constructor
        · simpa [← hpre] using
            textBetween_nil (pre ++ originalOf (⟨EKind.add, v⟩ :: d2 :: rest) ++ post) pre.length
        · simp [hpre]
      · rw [hor]
        exact suggsOf_textAt sp e (d2 :: rest) pos pre post hpre sg h
    | remove =>
      rw [suggsOf] at h
      have hor : originalOf (⟨EKind.remove, v⟩ :: d2 :: rest) = v ++ originalOf (d2 :: rest) := by
        simp [originalOf]
      have hlen : (pre ++ v).length = sp + (pos + v.length) := by
        simp [hpre]; omega
      have hb : pre ++ originalOf (⟨EKind.remove, v⟩ :: d2 :: rest) ++ post =
          (pre ++ v) ++ originalOf (d2 :: rest) ++ post := by
        simp [hor]
      have hl : pre.length + (originalOf (⟨EKind.remove, v⟩ :: d2 :: rest)).length =
          (pre ++ v).length + (originalOf (d2 :: rest)).length := by
        simp [hor]; omega
      have hhead :
          textBetween (pre ++ originalOf (⟨EKind.remove, v⟩ :: d2 :: rest) ++ post)
              (sp + pos) (sp + pos + v.length) = v ∧
          sp + pos + v.length ≤
            pre.length + (originalOf (⟨EKind.remove, v⟩ :: d2 :: rest)).length := by
        constructor
        · rw [hor, ← hpre, ← List.append_assoc]
          simpa [List.append_assoc] using textBetween_at pre v (originalOf (d2 :: rest) ++ post)
        · simp only [hor, List.length_append, hpre]
          omega
      by_cases h2 : d2.kind = EKind.add
      · rw [if_pos h2] at h
        rcases List.mem_cons.1 h with rfl | h
        · exact hhead
        · have hor2 : originalOf (d2 :: rest) = originalOf rest := by
            simp [originalOf, h2]
          rw [hb, hl, hor2]
          exact suggsOf_textAt sp e rest (pos + v.length) (pre ++ v) post hlen sg h
      · rw [if_neg h2] at h
        rcases List.mem_cons.1 h with rfl | h
        · exact hhead
        · rw [hb, hl]
          exact suggsOf_textAt sp e (d2 :: rest) (pos + v.length) (pre ++ v) post hlen sg h

/-! ## Separation of generated suggestions and the descending sort -/

theorem SepFrom_weaken : ∀ (l : List WordSuggestion) (lo hi : Nat),
    lo ≤ hi → SepFrom hi l → SepFrom lo l
  | [], _, _, _, _ => trivial
  | s :: rest, lo, hi, hlo, h => ⟨Nat.le_trans hlo h.1, h.2.1, h.2.2⟩

/-- Canonically shaped diff scripts generate strictly separated
suggestions: directly after a changed region (`b = false`) the next
suggestion starts at least one position later. -/
theorem co_sep (sp : Nat) (e : Option Txt) :
    ∀ {b : Bool} {ds : List DiffChange}, CO b ds → ∀ pos : Nat,
      SepFrom (if b then sp + pos else sp + pos + 1) (suggsOf sp e ds pos) := by
  intro b ds h
  induction h with
  | nil b => intro pos; simp [suggsOf, SepFrom]
  | unch b v rest hv hrest ih =>
    intro pos
    have hlen : 0 < v.length := List.length_pos.2 hv
    have step : SepFrom (sp + (pos + v.length)) (suggsOf sp e rest (pos + v.length)) := by
      simpa using ih (pos + v.length)
    have goal : SepFrom (if b then sp + pos else sp + pos + 1)
        (suggsOf sp e rest (pos + v.length)) := by
      refine SepFrom_weaken _ _ _ ?_ step
      cases b <;> simp <;> omega
    cases rest with
    | nil => simpa [suggsOf] using goal
    | cons d2 rest2 => simpa [suggsOf] using goal
  | rem v rest hv hrest ih =>
    intro pos
    have tail : SepFrom (sp + (pos + v.length) + 1) (suggsOf sp e rest (pos + v.length)) := by
      simpa using ih (pos + v.length)
    have tail' : SepFrom (sp + pos + v.length + 1) (suggsOf sp e rest (pos + v.length)) := by
      refine SepFrom_weaken _ _ _ (by omega) tail
    cases hrest with
    | nil =>
      simp [suggsOf, SepFrom]
    | unch _ w rest2 hw hrest2 =>
      have : SepFrom (sp + pos) (suggsOf sp e
          (⟨EKind.remove, v⟩ :: ⟨EKind.unchanged, w⟩ :: rest2) pos) := by
        rw [suggsOf]
        simp only [if_neg (by simp : ¬((⟨EKind.unchanged, w⟩ : DiffChange).kind = EKind.add))]
        exact ⟨Nat.le_refl _, Nat.le_add_right _ _, tail'⟩
      simpa using this
  | add v rest hv hrest ih =>
    intro pos
    have tail : SepFrom (sp + pos + 1) (suggsOf sp e rest pos) := by
      simpa using ih pos
    cases hrest with
    | nil => simp [suggsOf, SepFrom]
    | unch _ w rest2 hw hrest2 =>
      have : SepFrom (sp + pos) (suggsOf sp e
          (⟨EKind.add, v⟩ :: ⟨EKind.unchanged, w⟩ :: rest2) pos) := by
        rw [suggsOf]
        exact ⟨Nat.le_refl _, Nat.le_refl _, tail⟩
      simpa using this
  | remadd v w rest hv hw hrest ih =>
    intro pos
    have tail : SepFrom (sp + (pos + v.length) + 1) (suggsOf sp e rest (pos + v.length)) := by
      simpa using ih (pos + v.length)
    have tail' : SepFrom (sp + pos + v.length + 1) (suggsOf sp e rest (pos + v.length)) := by
      refine SepFrom_weaken _ _ _ (by omega) tail
    have : SepFrom (sp + pos) (suggsOf sp e
        (⟨EKind.remove, v⟩ :: ⟨EKind.add, w⟩ :: rest) pos) := by
      rw [suggsOf]
      simp only [if_pos (by simp : (⟨EKind.add, w⟩ : DiffChange).kind = EKind.add)]
      exact ⟨Nat.le_refl _, Nat.le_add_right _ _, tail'⟩
    simpa using this

theorem toChange_fromPos (s : WordSuggestion) :
    (suggestionToChange s).fromPos = s.fromPos := by
  unfold suggestionToChange
  cases s.type <;> rfl

theorem AscFrom_weaken : ∀ (l : List TextChange) (lo hi : Nat),
    lo ≤ hi → AscFrom hi l → AscFrom lo l
  | [], _, _, _, _ => trivial
  | c :: rest, lo, hi, hlo, h => ⟨Nat.le_trans hlo h.1, h.2⟩

theorem sep_asc : ∀ (l : List WordSuggestion) (lo : Nat),
    SepFrom lo l → AscFrom lo (l.map suggestionToChange)
  | [], _, _ => trivial
  | s :: rest, lo, h => by
    refine ⟨by rw [toChange_fromPos]; exact h.1, ?_⟩
    rw [toChange_fromPos]
    exact AscFrom_weaken _ _ _ (Nat.succ_le_succ h.2.1) (sep_asc rest (s.toPos + 1) h.2.2)

theorem AscFrom_mem : ∀ (l : List TextChange) (lo : Nat),
    AscFrom lo l → ∀ c ∈ l, lo ≤ c.fromPos
  | [], _, _ => by intro c hc; simp at hc
  | x :: rest, lo, h => by
    intro c hc
    rcases List.mem_cons.1 hc with rfl | hc
    · exact h.1
    · exact Nat.le_trans (Nat.le_trans h.1 (Nat.le_succ _))
        (AscFrom_mem rest (x.fromPos + 1) h.2 c hc)

theorem insertDesc_append : ∀ (l : List TextChange) (x : TextChange),
    (∀ y ∈ l, ¬(y.fromPos ≤ x.fromPos)) → insertDesc x l = l ++ [x]
  | [], x, _ => rfl
  | y :: ys, x, h => by
    rw [insertDesc, if_neg (h y (by simp)),
      insertDesc_append ys x (fun z hz => h z (by simp [hz]))]
    rfl

theorem sortDesc_of_asc : ∀ (l : List TextChange) (lo : Nat),
    AscFrom lo l → sortDesc l = l.reverse
  | [], _, _ => rfl
  | c :: cs, lo, h => by
    rw [sortDesc, sortDesc_of_asc cs (c.fromPos + 1) h.2]
    have hmem : ∀ y ∈ cs.reverse, ¬(y.fromPos ≤ c.fromPos) := by
      intro y hy
      have := AscFrom_mem cs (c.fromPos + 1) h.2 y (List.mem_reverse.1 hy)
      omega
    rw [insertDesc_append cs.reverse c hmem]
    simp

/-! ## The atomic application of generated suggestions -/

theorem exBind_ok {γ α β : Type} (x : α) (f : α → Except γ β) :
    (Except.ok x >>= f) = f x := rfl

theorem exBind_err {γ α β : Type} (g : γ) (f : α → Except γ β) :
    ((Except.error g : Except γ α) >>= f) = Except.error g := rfl

theorem exPure {γ α : Type} (x : α) : (pure x : Except γ α) = Except.ok x := rfl

theorem exBindP {γ α β : Type} (x : α) (f : α → Except γ β) :
    (Except.ok x).bind f = f x := rfl

theorem atomicStep_at (pre mid rest ins : Txt) :
    atomicStep (pre ++ mid ++ rest)
      { fromPos := pre.length, toPos := pre.length + mid.length,
        insert := some ins, delete := false } = Except.ok (pre ++ ins ++ rest) := by
  unfold atomicStep
  by_cases hmid : mid = []
  · subst hmid
    simp only [List.length_nil, Nat.add_zero, List.append_nil]
    have hcond : ¬(false = true ∨
        (some ins).isSome = true ∧ pre.length ≠ pre.length) := by simp
    rw [if_neg hcond]
    by_cases hins : 0 < ins.length
    · simpa [hins] using trInsert_at pre rest ins
    · have : ins = [] := by
        cases ins with
        | nil => rfl
        | cons a l => simp at hins
      simp [this, exBind_ok]
  · have hne : pre.length ≠ pre.length + mid.length := by
      have : 0 < mid.length := List.length_pos.2 hmid
      omega
    have hcond : (false = true ∨ (some ins).isSome = true ∧
        pre.length ≠ pre.length + mid.length) := by simp [hne]
    rw [if_pos hcond, trDelete_at pre mid rest]
    by_cases hins : 0 < ins.length
    · simpa [hins] using trInsert_at pre rest ins
    · have : ins = [] := by
        cases ins with
        | nil => rfl
        | cons a l => simp at hins
      simp [this, exBind_ok]

theorem atomicStep_remove_at (pre mid rest : Txt) :
    atomicStep (pre ++ mid ++ rest)
      { fromPos := pre.length, toPos := pre.length + mid.length,
        insert := none, delete := true } = Except.ok (pre ++ rest) := by
  unfold atomicStep
  rw [if_pos (by simp : (true = true ∨ (none : Option Txt).isSome = true ∧
    pre.length ≠ pre.length + mid.length)), trDelete_at pre mid rest]
  simp [exBind_ok]

theorem foldlM_app_except {α β : Type} (f : β → α → Except String β) (b : β)
    (l1 l2 : List α) :
    List.foldlM f b (l1 ++ l2) =
      (List.foldlM f b l1).bind (fun x => List.foldlM f x l2) := by
  induction l1 generalizing b with
  | nil => simp [List.foldlM_nil, exPure, Except.bind]
  | cons a l1 ih =>
    simp only [List.cons_append, List.foldlM_cons, ih]
    cases f b a with
    | error g => simp [exBind_err, Except.bind]
    | ok x => simp [exBind_ok, Except.bind]

/-- Applying the generated suggestions back-to-front (one `atomicStep`
each) to any buffer holding the diffed original text at offset `sp + pos`
rewrites exactly that region into the suggested text. -/
theorem applyRev (sp : Nat) (e : Option Txt) :
    ∀ (ds : List DiffChange) (pos : Nat) (pre post : Txt), pre.length = sp + pos →
      List.foldlM atomicStep (pre ++ originalOf ds ++ post)
        (((suggsOf sp e ds pos).map suggestionToChange).reverse) =
      Except.ok (pre ++ suggestedOf ds ++ post)
  | [], pos, pre, post, hpre => by
    simp [suggsOf, originalOf, suggestedOf, exPure]
  | [d], pos, pre, post, hpre => by
    rcases d with ⟨k, v⟩
    cases k with
    | unchanged => simp [suggsOf, originalOf, suggestedOf, exPure]
    | add =>
      have step := atomicStep_at pre [] post v
      simp only [List.append_nil, List.length_nil, Nat.add_zero] at step
      simp [suggsOf, originalOf, suggestedOf, suggestionToChange, ← hpre, step,
        exPure, exBindP, exBind_ok, ← List.append_assoc]
    | remove =>
      have step := atomicStep_remove_at pre v post
      simp [suggsOf, originalOf, suggestedOf, suggestionToChange, ← hpre, step,
        exPure, exBindP, exBind_ok, ← List.append_assoc]
  | d :: d2 :: rest, pos, pre, post, hpre => by
    rcases d with ⟨k, v⟩
    cases k with
    | unchanged =>
      have hlen : (pre ++ v).length = sp + (pos + v.length) := by
        simp [hpre]; omega
      have ih := applyRev sp e (d2 :: rest) (pos + v.length) (pre ++ v) post hlen
      rw [suggsOf]
      show List.foldlM atomicStep
          (pre ++ originalOf (⟨EKind.unchanged, v⟩ :: d2 :: rest) ++ post) _ = _
      have hb : pre ++ originalOf (⟨EKind.unchanged, v⟩ :: d2 :: rest) ++ post =
          (pre ++ v) ++ originalOf (d2 :: rest) ++ post := by
        simp [originalOf]
      have hs : pre ++ suggestedOf (⟨EKind.unchanged, v⟩ :: d2 :: rest) ++ post =
          (pre ++ v) ++ suggestedOf (d2 :: rest) ++ post := by
        simp [suggestedOf]
      rw [hb, hs]
      exact ih
    | add =>
      have ih := applyRev sp e (d2 :: rest) pos pre post hpre
      rw [suggsOf]
      have hor : originalOf (⟨EKind.add, v⟩ :: d2 :: rest) = originalOf (d2 :: rest) := by
        simp [originalOf]
      have hsug : suggestedOf (⟨EKind.add, v⟩ :: d2 :: rest) =
          v ++ suggestedOf (d2 :: rest) := by
        simp [suggestedOf]
      simp only [List.map_cons, List.reverse_cons, hor, hsug]
      rw [foldlM_app_except, ih]
      have step := atomicStep_at pre [] (suggestedOf (d2 :: rest) ++ post) v
      simp only [List.append_nil, List.length_nil, Nat.add_zero,
        ← List.append_assoc] at step
      simp only [suggestionToChange, ← hpre, ← List.append_assoc, exBindP,
        List.foldlM_cons, List.foldlM_nil]
      rw [step]
      rfl
    | remove =>
      by_cases h2 : d2.kind = EKind.add
      · have hlen : (pre ++ v).length = sp + (pos + v.length) := by
          simp [hpre]; omega
        have ih := applyRev sp e rest (pos + v.length) (pre ++ v) post hlen
        rw [suggsOf]
        rw [if_pos h2]
        have hor : pre ++ originalOf (⟨EKind.remove, v⟩ :: d2 :: rest) ++ post =
            (pre ++ v) ++ originalOf rest ++ post := by
          rcases d2 with ⟨k2, w⟩
          cases k2 <;> simp_all [originalOf]
        have hsug : suggestedOf (⟨EKind.remove, v⟩ :: d2 :: rest) =
            d2.value ++ suggestedOf rest := by
          rcases d2 with ⟨k2, w⟩
          cases k2 <;> simp_all [suggestedOf]
        simp only [List.map_cons, List.reverse_cons, hor, hsug]
        rw [foldlM_app_except, ih]
        have step := atomicStep_at pre v (suggestedOf rest ++ post) d2.value
        simp only [← List.append_assoc] at step
        simp only [suggestionToChange, ← hpre, ← List.append_assoc, exBindP,
          List.foldlM_cons, List.foldlM_nil]
        rw [step]
        rfl
      · have hlen : (pre ++ v).length = sp + (pos + v.length) := by
          simp [hpre]; omega
        have ih := applyRev sp e (d2 :: rest) (pos + v.length) (pre ++ v) post hlen
        rw [suggsOf]
        rw [if_neg h2]
        have hor : pre ++ originalOf (⟨EKind.remove, v⟩ :: d2 :: rest) ++ post =
            (pre ++ v) ++ originalOf (d2 :: rest) ++ post := by
          simp [originalOf]
        have hsug : suggestedOf (⟨EKind.remove, v⟩ :: d2 :: rest) =
            suggestedOf (d2 :: rest) := by
          simp [suggestedOf]
        simp only [List.map_cons, List.reverse_cons, hor, hsug]
        rw [foldlM_app_except, ih]
        have step := atomicStep_remove_at pre v (suggestedOf (d2 :: rest) ++ post)
        simp only [← List.append_assoc] at step
        simp only [suggestionToChange, ← hpre, ← List.append_assoc, exBindP,
          List.foldlM_cons, List.foldlM_nil]
        rw [step]
        rfl

/-! ## Validation lemmas -/

theorem validatePosition_of_text (buf : Txt) (a b : Nat) (expected : Txt)
    (hab : a ≤ b) (hb : b ≤ buf.length) (htext : textBetween buf a b = expected) :
    (validatePosition buf a b (some expected)).valid = true := by
  unfold validatePosition
  rw [if_neg (by omega : ¬(b > buf.length ∨ a > b))]
  simp [htext]

theorem validatePosition_none_valid (buf : Txt) (a b : Nat)
    (hab : a ≤ b) (hb : b ≤ buf.length) :
    (validatePosition buf a b none).valid = true := by
  unfold validatePosition
  rw [if_neg (by omega : ¬(b > buf.length ∨ a > b))]

theorem validatePosition_bounds (buf : Txt) (a b : Nat) (x : Option Txt)
    (h : (validatePosition buf a b x).valid = true) : a ≤ b ∧ b ≤ buf.length := by
  by_contra hc
  unfold validatePosition at h
  rw [if_pos (by omega : b > buf.length ∨ a > b)] at h
  simp at h

theorem relocateAll_ok (buf : Txt) : ∀ (l : List WordSuggestion),
    (∀ sg ∈ l, (validatePosition buf sg.fromPos sg.toPos (some sg.originalText)).valid
      = true) → relocateAll buf l = Except.ok l
  | [] => fun _ => rfl
  | sg :: rest => by
    intro h
    rw [relocateAll, if_pos (by simpa using h sg (by simp)),
      relocateAll_ok buf rest (fun x hx => h x (by simp [hx]))]
    rfl

theorem suggsOf_nil_eq (sp : Nat) (e : Option Txt) :
    ∀ (ds : List DiffChange) (pos : Nat), suggsOf sp e ds pos = [] →
      originalOf ds = suggestedOf ds
  | [], _, _ => rfl
  | [d], pos, h => by
    rcases d with ⟨k, v⟩
    cases k <;> simp [suggsOf, originalOf, suggestedOf] at h ⊢
  | d :: d2 :: rest, pos, h => by
    rcases d with ⟨k, v⟩
    cases k with
    | unchanged =>
      rw [suggsOf] at h
      have hrec := suggsOf_nil_eq sp e (d2 :: rest) (pos + v.length) h
      have h1 : originalOf (⟨EKind.unchanged, v⟩ :: d2 :: rest) =
          v ++ originalOf (d2 :: rest) := by simp [originalOf]
      have h2 : suggestedOf (⟨EKind.unchanged, v⟩ :: d2 :: rest) =
          v ++ suggestedOf (d2 :: rest) := by simp [suggestedOf]
      rw [h1, h2, hrec]
    | add => rw [suggsOf] at h; simp at h
    | remove =>
      rw [suggsOf] at h
      by_cases h2 : d2.kind = EKind.add
      · rw [if_pos h2] at h; simp at h
      · rw [if_neg h2] at h; simp at h

/-! ## Claim C1: the diff generator round-trips -/

/-- Claim C1.  For every pair of strings `(original, suggested)`, applying
the suggestion list produced by `generateWordSuggestions original suggested
0 e` to a buffer initialised to `original` with `applySuggestionsAtomic`
succeeds and leaves the buffer holding exactly `suggested`. -/
theorem C1_diff_roundtrip (o s : Txt) (e : Option Txt) :
    (applySuggestionsAtomic o (generateWordSuggestions o s 0 e)).1.success = true ∧
    (applySuggestionsAtomic o (generateWordSuggestions o s 0 e)).2 = s := by
  have hbridge := generateWordSuggestions_suggsOf o s 0 e
  have horig := diffWordsWithSpace_originalOf o s
  have hsugg := diffWordsWithSpace_suggestedOf o s
  have hco := diffWordsWithSpace_CO o s
  set ds := diffWordsWithSpace o s with hds
  set suggs := suggsOf 0 e ds 0 with hsg
  have hbuf : o = [] ++ originalOf ds ++ [] := by simp [horig]
  have hvalid : ∀ sg ∈ suggs,
      (validatePosition o sg.fromPos sg.toPos (some sg.originalText)).valid = true := by
    intro sg hmem
    have htext := suggsOf_textAt 0 e ds 0 [] [] (by simp) sg hmem
    have hinv := suggsOf_inv 0 e ds 0 sg hmem
    refine validatePosition_of_text o _ _ _ hinv.1 ?_ ?_
    · rw [hbuf]
      simpa [horig] using htext.2
    · rw [hbuf]
      exact htext.1
  have hreloc : relocateAll o suggs = Except.ok suggs := relocateAll_ok o suggs hvalid
  rw [hbridge]
  unfold applySuggestionsAtomic
  rw [hreloc]
  show (applyChangesAtomic o (List.map suggestionToChange suggs)).1.success = true ∧
      (applyChangesAtomic o (List.map suggestionToChange suggs)).2 = s
  by_cases hnil : suggs = []
  · have hos : o = s := by
      have := suggsOf_nil_eq 0 e ds 0 (by rw [← hsg, hnil])
      rw [← horig, ← hsugg, this]
    rw [hnil]
    simp [applyChangesAtomic, hos]
  · have hlen : (List.map suggestionToChange suggs).length ≠ 0 := by
      simp [hnil]
    have hsep : SepFrom 0 suggs := by
      simpa using co_sep 0 e hco 0
    have hsorted : sortDesc (List.map suggestionToChange suggs) =
        (List.map suggestionToChange suggs).reverse :=
      sortDesc_of_asc _ 0 (sep_asc suggs 0 hsep)
    have hallvalid : ∀ c ∈ sortDesc (List.map suggestionToChange suggs),
        (validatePosition o c.fromPos c.toPos none).valid = true := by
      intro c hc
      rw [hsorted] at hc
      rcases List.mem_map.1 (List.mem_reverse.1 hc) with ⟨sg, hmem, rfl⟩
      have htext := suggsOf_textAt 0 e ds 0 [] [] (by simp) sg hmem
      have hinv := suggsOf_inv 0 e ds 0 sg hmem
      have hto : sg.toPos ≤ o.length := by
        rw [hbuf]
        simpa [horig] using htext.2
      rcases hinv with ⟨h1, _, _⟩
      unfold suggestionToChange
      cases htype : sg.type <;> simp <;>
        exact validatePosition_none_valid o _ _ (by omega) (by omega)
    have hfold : List.foldlM atomicStep o
        (sortDesc (List.map suggestionToChange suggs)) = Except.ok s := by
      rw [hsorted]
      have := applyRev 0 e ds 0 [] [] (by simp)
      simpa [horig, hsugg] using this
    unfold applyChangesAtomic
    rw [if_neg hlen]
    rw [if_pos (by rw [List.all_eq_true]; intro c hc; exact hallvalid c hc)]
    rw [hfold]
    exact ⟨rfl, rfl⟩

/-! ## Claim C10: diffing identical inputs yields no suggestions -/

theorem canonGo_unch : ∀ (xs : List Txt),
    canonGo (xs.map (fun t => ⟨EKind.unchanged, t⟩)) [] [] =
      xs.map (fun t => ⟨EKind.unchanged, t⟩)
  | [] => rfl
  | x :: xs => by
    simp only [List.map_cons, canonGo, emitRegion]
    rw [canonGo_unch xs]
    rfl

theorem suggsOf_unch (sp : Nat) (e : Option Txt) : ∀ (xs : List Txt) (pos : Nat),
    suggsOf sp e (xs.map (fun t => ⟨EKind.unchanged, t⟩)) pos = []
  | [], _ => rfl
  | [x], pos => by simp [suggsOf]
  | x :: x2 :: xs, pos => by
    rw [List.map_cons, List.map_cons, suggsOf]
    exact suggsOf_unch sp e (x2 :: xs) (pos + x.length)

/-- Claim C10.  The diff generator applied to identical inputs returns the
empty suggestion list, for every base offset and optional explanation. -/
theorem C10_identical_inputs (t : Txt) (startPos : Nat) (e : Option Txt) :
    generateWordSuggestions t t startPos e = [] := by
  rw [generateWordSuggestions_suggsOf]
  show suggsOf startPos e
    (canonGo (difF ((tokenize t).length + (tokenize t).length)
      (tokenize t) (tokenize t)) [] []) 0 = []
  rw [difF_self _ _ (by omega), canonGo_unch, suggsOf_unch]

/-! ## Claim C2: an unrecoverable member aborts the whole batch -/

theorem relocateAll_err (buf : Txt) : ∀ (l : List WordSuggestion),
    (∃ s ∈ l, (validatePosition buf s.fromPos s.toPos (some s.originalText)).valid = false ∧
      (s.originalText = [] ∨ findTextPosition buf s.originalText 0 defaultFind = none)) →
    ∃ g, relocateAll buf l = Except.error g
  | [] => by intro h; simp at h
  | sg :: rest => by
    intro h
    rw [relocateAll]
    by_cases hv : (validatePosition buf sg.fromPos sg.toPos (some sg.originalText)).valid
      = true
    · rw [if_pos hv]
      have hrest : ∃ s ∈ rest,
          (validatePosition buf s.fromPos s.toPos (some s.originalText)).valid = false ∧
          (s.originalText = [] ∨
            findTextPosition buf s.originalText 0 defaultFind = none) := by
        rcases h with ⟨s, hs, hbad⟩
        rcases List.mem_cons.1 hs with rfl | hs
        · rw [hv] at hbad; simp at hbad
        · exact ⟨s, hs, hbad⟩
      rcases relocateAll_err buf rest hrest with ⟨g, hg⟩
      exact ⟨g, by rw [hg]; rfl⟩
    · rw [if_neg hv]
      by_cases ho : sg.originalText = []
      · rw [if_pos ho]
        exact ⟨_, rfl⟩
      · rw [if_neg ho]
        cases hfind : findTextPosition buf sg.originalText 0 defaultFind with
        | none => exact ⟨_, rfl⟩
        | some p =>
          have hrest : ∃ s ∈ rest,
              (validatePosition buf s.fromPos s.toPos (some s.originalText)).valid
                = false ∧
              (s.originalText = [] ∨
                findTextPosition buf s.originalText 0 defaultFind = none) := by
            rcases h with ⟨s, hs, hbad⟩
            rcases List.mem_cons.1 hs with rfl | hs
            · rcases hbad.2 with h2 | h2
              · exact absurd h2 ho
              · rw [h2] at hfind; cases hfind
            · exact ⟨s, hs, hbad⟩
          rcases relocateAll_err buf rest hrest with ⟨g, hg⟩
          exact ⟨g, by rw [hg]; rfl⟩

/-- Claim C2.  If a batch contains an unrecoverable suggestion — one whose
range does not validate against the current buffer and whose
`originalText` is empty or cannot be found anywhere — the whole batch
fails: `applySuggestionsAtomic` reports failure and the buffer is exactly
its pre-call state; no member of the batch mutates it. -/
theorem C2_batch_atomicity (buf : Txt) (suggestions : List WordSuggestion)
    (s : WordSuggestion) (hmem : s ∈ suggestions)
    (hinvalid : (validatePosition buf s.fromPos s.toPos (some s.originalText)).valid
      = false)
    (hnofind : s.originalText = [] ∨
      findTextPosition buf s.originalText 0 defaultFind = none) :
    (applySuggestionsAtomic buf suggestions).1.success = false ∧
    (applySuggestionsAtomic buf suggestions).2 = buf := by
  rcases relocateAll_err buf suggestions ⟨s, hmem, hinvalid, hnofind⟩ with ⟨g, hg⟩
  unfold applySuggestionsAtomic
  rw [hg]
  exact ⟨rfl, rfl⟩

/-- Witness for claim C2 at a concrete input: on buffer `"hello"`, a
suggestion expecting `"zz"` at `[0,2)` neither validates nor is found, so
the batch fails and the buffer is unchanged. -/
theorem C2_batch_atomicity_witness :
    ((validatePosition "hello".data 0 2
        (some "zz".data)).valid = false) ∧
    (applySuggestionsAtomic "hello".data
        [{ fromPos := 0, toPos := 2, originalText := "zz".data,
           suggestedText := "y".data, explanation := none,
           type := SKind.replace }]).1.success = false ∧
    (applySuggestionsAtomic "hello".data
        [{ fromPos := 0, toPos := 2, originalText := "zz".data,
           suggestedText := "y".data, explanation := none,
           type := SKind.replace }]).2 = "hello".data :=
  ⟨by decide,
    C2_batch_atomicity "hello".data
      [{ fromPos := 0, toPos := 2, originalText := "zz".data,
         suggestedText := "y".data, explanation := none, type := SKind.replace }]
      { fromPos := 0, toPos := 2, originalText := "zz".data,
        suggestedText := "y".data, explanation := none, type := SKind.replace }
      (by simp) (by decide) (Or.inr (by decide))⟩

/-! ## Claim C3: the position validator -/

/-- Claim C3.  For an in-bounds range with an expectation supplied, the
validator accepts exactly when the buffer text at the range equals the
expectation verbatim or after whitespace normalisation (collapse runs,
trim); on rejection it reports both the actual and the expected text. -/
theorem C3_validate_tolerance (buf expected : Txt) (a b : Nat)
    (hab : a ≤ b) (hb : b ≤ buf.length) :
    ((validatePosition buf a b (some expected)).valid = true ↔
      (textBetween buf a b = expected ∨
        normWS (textBetween buf a b) = normWS expected)) ∧
    ((validatePosition buf a b (some expected)).valid = false →
      (validatePosition buf a b (some expected)).actualText =
        some (textBetween buf a b) ∧
      (validatePosition buf a b (some expected)).expectedText = some expected) := by
  unfold validatePosition
  rw [if_neg (by omega : ¬(b > buf.length ∨ a > b))]
  by_cases h1 : textBetween buf a b = expected
  · simp [h1]
  · by_cases h2 : normWS (textBetween buf a b) = normWS expected
    · simp [h1, h2]
    · simp [h1, h2]

/-- Witness for claim C3 at the spec's concrete instances: against actual
text `"a b"`, the expectation `"a  b"` validates (whitespace-normalised
match) while `"ab"` does not, and the failure carries both texts. -/
theorem C3_validate_tolerance_witness :
    (validatePosition "a b".data 0 3 (some "a  b".data)).valid = true ∧
    (validatePosition "a b".data 0 3 (some "ab".data)).valid = false ∧
    (validatePosition "a b".data 0 3 (some "ab".data)).actualText =
      some "a b".data ∧
    (validatePosition "a b".data 0 3 (some "ab".data)).expectedText =
      some "ab".data := by
  refine ⟨?_, ?_, ?_, ?_⟩
  · exact (C3_validate_tolerance "a b".data "a  b".data 0 3 (by decide)
      (by decide)).1.mpr (Or.inr (by decide))
  · decide
  · exact ((C3_validate_tolerance "a b".data "ab".data 0 3 (by decide)
      (by decide)).2 (by decide)).1
  · exact ((C3_validate_tolerance "a b".data "ab".data 0 3 (by decide)
      (by decide)).2 (by decide)).2

/-! ## Claim C4: order independence of the batch applicator -/

theorem sortDesc_pair (a b : TextChange) (hne : a.fromPos ≠ b.fromPos) :
    sortDesc [a, b] = sortDesc [b, a] := by
  rcases Nat.lt_or_ge a.fromPos b.fromPos with h | h
  · simp [sortDesc, insertDesc, Nat.le_of_lt h, Nat.not_le.2 h]
  · have hlt : b.fromPos < a.fromPos := Nat.lt_of_le_of_ne h (fun hx => hne hx.symm)
    simp [sortDesc, insertDesc, Nat.le_of_lt hlt, Nat.not_le.2 hlt]

theorem applyChangesAtomic_of_sort (buf : Txt) (l1 l2 : List TextChange)
    (hs : sortDesc l1 = sortDesc l2) (hl : l1.length = l2.length) :
    applyChangesAtomic buf l1 = applyChangesAtomic buf l2 := by
  unfold applyChangesAtomic
  rw [hs, hl]

/-- Counterexample to claim C4 as stated: two non-overlapping suggestions
that both validate (a zero-width `add` at 0 and a `replace` of `[0,2)`,
ranges `[0,0)` and `[0,2)` are disjoint) but share `fromPos`, so the
stable descending sort keeps their array order and the two batch orders
produce different buffers. -/
theorem C4_counterexample :
    (validatePosition "abz".data 0 0 (some ([] : Txt))).valid = true ∧
    (validatePosition "abz".data 0 2 (some "ab".data)).valid = true ∧
    (0 : Nat) ≤ 0 ∧
    (applySuggestionsAtomic "abz".data
        [{ fromPos := 0, toPos := 0, originalText := [], suggestedText := "X".data,
           explanation := none, type := SKind.add },
         { fromPos := 0, toPos := 2, originalText := "ab".data,
           suggestedText := "cd".data, explanation := none,
           type := SKind.replace }]).2 ≠
      (applySuggestionsAtomic "abz".data
        [{ fromPos := 0, toPos := 2, originalText := "ab".data,
           suggestedText := "cd".data, explanation := none,
           type := SKind.replace },
         { fromPos := 0, toPos := 0, originalText := [], suggestedText := "X".data,
           explanation := none, type := SKind.add }]).2 := by
  decide

/-- Claim C4, amended.  For two non-overlapping suggestions that validate
against the current buffer **and have distinct `from` positions**, the
batch applicator gives the same final buffer in either array order (the
descending sort then puts them in the same order; with equal `from`
positions the sort is stable and order-dependent, see
`C4_counterexample`). -/
theorem C4_order_independence (buf : Txt) (s1 s2 : WordSuggestion)
    (h1 : (validatePosition buf s1.fromPos s1.toPos (some s1.originalText)).valid = true)
    (h2 : (validatePosition buf s2.fromPos s2.toPos (some s2.originalText)).valid = true)
    (_hdisj : s1.toPos ≤ s2.fromPos ∨ s2.toPos ≤ s1.fromPos)
    (hne : s1.fromPos ≠ s2.fromPos) :
    (applySuggestionsAtomic buf [s1, s2]).2 = (applySuggestionsAtomic buf [s2, s1]).2 := by
  have hr1 : relocateAll buf [s1, s2] = Except.ok [s1, s2] := by
    refine relocateAll_ok buf [s1, s2] ?_
    intro sg hsg
    rcases List.mem_cons.1 hsg with rfl | hsg
    · exact h1
    · rcases List.mem_cons.1 hsg with rfl | hsg
      · exact h2
      · simp at hsg
  have hr2 : relocateAll buf [s2, s1] = Except.ok [s2, s1] := by
    refine relocateAll_ok buf [s2, s1] ?_
    intro sg hsg
    rcases List.mem_cons.1 hsg with rfl | hsg
    · exact h2
    · rcases List.mem_cons.1 hsg with rfl | hsg
      · exact h1
      · simp at hsg
  unfold applySuggestionsAtomic
  rw [hr1, hr2]
  show (applyChangesAtomic buf [suggestionToChange s1, suggestionToChange s2]).2 =
    (applyChangesAtomic buf [suggestionToChange s2, suggestionToChange s1]).2
  rw [applyChangesAtomic_of_sort buf _ _
    (sortDesc_pair _ _ (by rw [toChange_fromPos, toChange_fromPos]; exact hne))
    (by simp)]

/-- Witness for the amended claim C4 at a concrete input: two disjoint
validating replacements of `"ab cd"` at distinct positions commute under
`applyAll`. -/
theorem C4_order_independence_witness :
    (applySuggestionsAtomic "ab cd".data
        [{ fromPos := 0, toPos := 2, originalText := "ab".data,
           suggestedText := "xy".data, explanation := none, type := SKind.replace },
         { fromPos := 3, toPos := 5, originalText := "cd".data,
           suggestedText := "z".data, explanation := none, type := SKind.replace }]).2 =
      (applySuggestionsAtomic "ab cd".data
        [{ fromPos := 3, toPos := 5, originalText := "cd".data,
           suggestedText := "z".data, explanation := none, type := SKind.replace },
         { fromPos := 0, toPos := 2, originalText := "ab".data,
           suggestedText := "xy".data, explanation := none, type := SKind.replace }]).2 :=
  C4_order_independence "ab cd".data
    { fromPos := 0, toPos := 2, originalText := "ab".data,
      suggestedText := "xy".data, explanation := none, type := SKind.replace }
    { fromPos := 3, toPos := 5, originalText := "cd".data,
      suggestedText := "z".data, explanation := none, type := SKind.replace }
    (by decide) (by decide) (Or.inl (by decide)) (by decide)

/-! ## Claim C8: applying an already-satisfied suggestion is a no-op -/

theorem trReplaceWith_ok (buf ins : Txt) (a b : Nat) (hab : a ≤ b) (hb : b ≤ buf.length) :
    trReplaceWith buf a b ins = Except.ok (splice buf a b ins) := by
  unfold trReplaceWith
  rw [if_pos ⟨hab, hb⟩]

theorem trDelete_ok (buf : Txt) (a b : Nat) (hab : a ≤ b) (hb : b ≤ buf.length) :
    trDelete buf a b = Except.ok (buf.take a ++ buf.drop b) := by
  unfold trDelete
  rw [if_pos ⟨hab, hb⟩]

theorem trInsert_ok (buf ins : Txt) (a : Nat) (ha : a ≤ buf.length) :
    trInsert buf a ins = Except.ok (buf.take a ++ ins ++ buf.drop a) := by
  unfold trInsert
  rw [if_pos ha]

theorem textBetween_nil_imp (buf : Txt) (a b : Nat) (hab : a ≤ b) (hb : b ≤ buf.length)
    (h : textBetween buf a b = []) : b = a := by
  have hlen : (textBetween buf a b).length = 0 := by rw [h]; rfl
  unfold textBetween at hlen
  simp only [List.length_take, List.length_drop] at hlen
  omega

/-- Claim C8.  A suggestion (satisfying the data-model invariant) whose
stored range validates against the buffer and whose `suggestedText` already
equals the buffer text at that range applies with `success:true` and leaves
the buffer unchanged. -/
theorem C8_noop_idempotent (buf : Txt) (s : WordSuggestion) (hinv : SuggInv s)
    (hvalid : (validatePosition buf s.fromPos s.toPos (some s.originalText)).valid = true)
    (hnoop : s.suggestedText = textBetween buf s.fromPos s.toPos) :
    (applySuggestion buf s).1.success = true ∧ (applySuggestion buf s).2 = buf := by
  obtain ⟨hab, hb⟩ := validatePosition_bounds buf _ _ _ hvalid
  have hsingle : applySuggestion buf s = applySingleChange buf (suggestionToChange s) false := by
    unfold applySuggestion
    simp [hvalid]
  rw [hsingle]
  unfold applySingleChange
  rw [if_neg (by simp)]
  cases htype : s.type with
  | replace =>
    simp only [suggestionToChange, htype]
    by_cases hlen : 0 < s.suggestedText.length
    · rw [hnoop] at hlen ⊢
      have := trReplaceWith_ok buf (textBetween buf s.fromPos s.toPos)
        s.fromPos s.toPos hab hb
      rw [splice_self buf _ _ hab hb] at this
      simp [hlen, this]
    · simp [hlen]
  | add =>
    have hft : s.fromPos = s.toPos := hinv.2.1 htype
    have hsug : s.suggestedText = [] := by
      rw [hnoop, hft, textBetween_nil]
    simp [suggestionToChange, htype, hsug]
  | remove =>
    have hsug : s.suggestedText = [] := hinv.2.2 htype
    have hft : s.toPos = s.fromPos :=
      textBetween_nil_imp buf _ _ hab hb (by rw [← hnoop, hsug])
    have hdel := trDelete_ok buf s.fromPos s.toPos hab hb
    rw [hft, List.take_append_drop] at hdel
    simp [suggestionToChange, htype, hdel, hft]

/-- Witness for claim C8 at a concrete input: replacing `[0,1)` of
`"abc"` (text `"a"`) by `"a"` succeeds without mutating the buffer. -/
theorem C8_noop_idempotent_witness :
    (applySuggestion "abc".data
        { fromPos := 0, toPos := 1, originalText := "a".data,
          suggestedText := "a".data, explanation := none,
          type := SKind.replace }).1.success = true ∧
    (applySuggestion "abc".data
        { fromPos := 0, toPos := 1, originalText := "a".data,
          suggestedText := "a".data, explanation := none,
          type := SKind.replace }).2 = "abc".data :=
  C8_noop_idempotent "abc".data
    { fromPos := 0, toPos := 1, originalText := "a".data,
      suggestedText := "a".data, explanation := none, type := SKind.replace }
    ⟨by decide, by decide, by decide⟩ (by decide) (by decide)

/-! ## Claim C9: the single-suggestion path versus a one-element batch -/

/-- Counterexample to claim C9 as stated: a validating `replace` whose
`suggestedText` is empty.  `applySuggestion` builds a change with
`insert = ""` and no `delete` flag, so `applySingleChange` performs no
mutation; the batch path deletes the range.  The two final buffers differ
(`"abc"` versus `"bc"`). -/
theorem C9_counterexample :
    (validatePosition "abc".data 0 1 (some "a".data)).valid = true ∧
    (applySuggestion "abc".data
        { fromPos := 0, toPos := 1, originalText := "a".data,
          suggestedText := [], explanation := none, type := SKind.replace }).2 ≠
      (applySuggestionsAtomic "abc".data
        [{ fromPos := 0, toPos := 1, originalText := "a".data,
           suggestedText := [], explanation := none, type := SKind.replace }]).2 := by
  decide

theorem take_del (buf : Txt) (a b : Nat) (ha : a ≤ buf.length) :
    (buf.take a ++ buf.drop b).take a = buf.take a :=
  List.take_left' (by simp [List.length_take]; omega)

theorem drop_del (buf : Txt) (a b : Nat) (ha : a ≤ buf.length) :
    (buf.take a ++ buf.drop b).drop a = buf.drop b :=
  List.drop_left' (by simp [List.length_take]; omega)

theorem sortDesc_single (c : TextChange) : sortDesc [c] = [c] := rfl

/-- Claim C9, amended.  For a suggestion whose stored range validates
against the current buffer, the single-suggestion path and the one-element
batch path leave the buffer in the same final state — **except** for a
`replace` with empty `suggestedText` over a nonempty range, where the two
paths disagree (see `C9_counterexample`); that case is excluded here. -/
theorem C9_single_eq_batch (buf : Txt) (s : WordSuggestion)
    (hvalid : (validatePosition buf s.fromPos s.toPos (some s.originalText)).valid = true)
    (hempty : s.type = SKind.replace → s.suggestedText = [] → s.fromPos = s.toPos) :
    (applySuggestion buf s).2 = (applySuggestionsAtomic buf [s]).2 := by
  obtain ⟨hab, hb⟩ := validatePosition_bounds buf _ _ _ hvalid
  have hsingle : applySuggestion buf s = applySingleChange buf (suggestionToChange s) false := by
    unfold applySuggestion
    simp [hvalid]
  have hreloc : relocateAll buf [s] = Except.ok [s] := by
    refine relocateAll_ok buf [s] ?_
    intro sg hsg
    rcases List.mem_cons.1 hsg with rfl | hsg
    · exact hvalid
    · simp at hsg
  have hbatch : applySuggestionsAtomic buf [s] =
      applyChangesAtomic buf [suggestionToChange s] := by
    unfold applySuggestionsAtomic
    rw [hreloc]
    rfl
  rw [hsingle, hbatch]
  have hcb : (suggestionToChange s).fromPos ≤ (suggestionToChange s).toPos ∧
      (suggestionToChange s).toPos ≤ buf.length := by
    unfold suggestionToChange
    cases s.type <;> simp <;> omega
  have hatomic : applyChangesAtomic buf [suggestionToChange s] =
      (match atomicStep buf (suggestionToChange s) with
       | Except.ok buf2 =>
         ({ success := true, error := none, appliedCount := some 1,
            newPosition := none }, buf2)
       | Except.error e =>
         ({ success := false, error := some e, appliedCount := some 0,
            newPosition := none }, buf)) := by
    unfold applyChangesAtomic
    rw [if_neg (by simp)]
    rw [show sortDesc [suggestionToChange s] = [suggestionToChange s] from rfl]
    rw [if_pos (by
      rw [List.all_eq_true]
      intro c hc
      rcases List.mem_singleton.1 hc with rfl
      exact validatePosition_none_valid buf _ _ hcb.1 hcb.2)]
    rw [show List.foldlM atomicStep buf [suggestionToChange s] =
      (atomicStep buf (suggestionToChange s)).bind (fun b2 => Except.ok b2) from rfl]
    cases atomicStep buf (suggestionToChange s) <;> rfl
  rw [hatomic]
  cases htype : s.type with
  | remove =>
    simp only [suggestionToChange, htype]
    unfold applySingleChange atomicStep
    rw [if_neg (by simp)]
    simp only [trDelete_ok buf s.fromPos s.toPos hab hb, exBind_ok]
    rfl
  | add =>
    simp only [suggestionToChange, htype]
    unfold applySingleChange atomicStep
    rw [if_neg (by simp)]
    by_cases hlen : 0 < s.suggestedText.length
    · have hfb : s.fromPos ≤ buf.length := by omega
      simp only [hlen, if_pos hlen,
        trReplaceWith_ok buf s.suggestedText s.fromPos s.fromPos (Nat.le_refl _) hfb]
      simp [splice, exBind_ok, trInsert_ok buf s.suggestedText s.fromPos hfb]
    · simp [hlen, exBind_ok]
  | replace =>
    simp only [suggestionToChange, htype]
    unfold applySingleChange atomicStep
    rw [if_neg (by simp)]
    by_cases hlen : 0 < s.suggestedText.length
    · by_cases hft : s.fromPos = s.toPos
      · have hfb : s.fromPos ≤ buf.length := by omega
        rw [hft]
        simp only [hlen, if_pos hlen,
          trReplaceWith_ok buf s.suggestedText s.toPos s.toPos (Nat.le_refl _) (by omega)]
        simp [splice, exBind_ok, trInsert_ok buf s.suggestedText s.toPos (by omega)]
      · simp only [hlen, if_pos hlen,
          trReplaceWith_ok buf s.suggestedText s.fromPos s.toPos hab hb]
        have hdel : (true = true ∨ (some s.suggestedText).isSome = true ∧
            s.fromPos ≠ s.toPos) ∨ (false = true ∨ (some s.suggestedText).isSome = true ∧
            s.fromPos ≠ s.toPos) := by simp [hft]
        rw [if_pos (by simp [hft] : (false = true ∨
          (some s.suggestedText).isSome = true ∧ s.fromPos ≠ s.toPos))]
        simp only [trDelete_ok buf s.fromPos s.toPos hab hb, exBind_ok]
        have hfb : s.fromPos ≤ buf.length := by omega
        simp only [hlen, if_pos hlen,
          trInsert_ok (buf.take s.fromPos ++ buf.drop s.toPos) s.suggestedText s.fromPos
            (by simp [List.length_take, List.length_drop]; omega)]
        rw [take_del buf s.fromPos s.toPos hfb, drop_del buf s.fromPos s.toPos hfb]
        simp [splice]
    · have hsug : s.suggestedText = [] := by
        cases hs : s.suggestedText with
        | nil => rfl
        | cons a l => rw [hs] at hlen; simp at hlen
      have hft : s.fromPos = s.toPos := hempty htype hsug
      simp [hlen, hsug, hft, exBind_ok]

/-- Witness for the amended claim C9 at a concrete input: a validating
nonempty `replace` of `[0,1)` of `"abc"` gives the same buffer through
`applySuggestion` and through a one-element `applySuggestionsAtomic`. -/
theorem C9_single_eq_batch_witness :
    (applySuggestion "abc".data
        { fromPos := 0, toPos := 1, originalText := "a".data,
          suggestedText := "x".data, explanation := none, type := SKind.replace }).2 =
      (applySuggestionsAtomic "abc".data
        [{ fromPos := 0, toPos := 1, originalText := "a".data,
           suggestedText := "x".data, explanation := none, type := SKind.replace }]).2 :=
  C9_single_eq_batch "abc".data
    { fromPos := 0, toPos := 1, originalText := "a".data,
      suggestedText := "x".data, explanation := none, type := SKind.replace }
    (by decide) (by decide)

/-! ## Claim C5: content search -/

theorem indexOfSub_sound : ∀ (hay needle : Txt) (i : Nat),
    indexOfSub needle hay = some i →
      (hay.drop i).take needle.length = needle ∧ i + needle.length ≤ hay.length
  | [], needle, i => by
    intro h
    unfold indexOfSub at h
    by_cases hp : needle.isPrefixOf ([] : Txt)
    · rw [if_pos hp] at h
      have hnil : needle = [] := by
        simpa using List.isPrefixOf_iff_prefix.1 hp
      cases h
      simp [hnil]
    · rw [if_neg hp] at h
      cases h
  | c :: t, needle, i => by
    intro h
    unfold indexOfSub at h
    by_cases hp : needle.isPrefixOf (c :: t)
    · rw [if_pos hp] at h
      cases h
      have hpre : needle <+: (c :: t) := List.isPrefixOf_iff_prefix.1 hp
      constructor
      · simpa using (List.prefix_iff_eq_take.1 hpre).symm
      · simpa using hpre.length_le
    · rw [if_neg hp] at h
      cases hidx : indexOfSub needle t with
      | none => rw [hidx] at h; cases h
      | some j =>
        rw [hidx] at h
        simp at h
        obtain ⟨h1, h2⟩ := indexOfSub_sound t needle j hidx
        subst h
        constructor
        · simpa using h1
        · simp only [List.length_cons]
          omega

theorem indexOfSub_nil_hay (needle : Txt) (hn : needle ≠ []) :
    indexOfSub needle ([] : Txt) = none := by
  unfold indexOfSub
  rw [if_neg]
  intro hp
  exact hn (by simpa using List.isPrefixOf_iff_prefix.1 hp)

theorem textBetween_all (buf : Txt) (st : Nat) :
    textBetween buf st buf.length = buf.drop st := by
  unfold textBetween
  exact List.take_of_length_le (by simp)

theorem findIndex_exact (buf n : Txt) (ww fz : Bool) (st i : Nat)
    (h : indexOfSub n (buf.drop st) = some i) :
    findIndex buf n ⟨true, ww, fz⟩ st = some i := by
  unfold findIndex
  simp [lowerIf, textBetween_all, h]

theorem findIndex_noexact (buf n : Txt) (ww : Bool) (st : Nat)
    (h : indexOfSub n (buf.drop st) = none) :
    findIndex buf n ⟨true, ww, false⟩ st = none ∧
    findIndex buf n ⟨true, ww, true⟩ st =
      indexOfSub (normWS n) (collapseWS (buf.drop st)) := by
  unfold findIndex
  simp [lowerIf, textBetween_all, h]

theorem isWordBoundary_nil : isWordBoundary ([] : Txt) = true := rfl

theorem isWordBoundary_space : isWordBoundary [' '] = true := by decide

/-- Past the end of the buffer a fuzzy match of an all-whitespace needle is
still possible, but its boundary test always succeeds: no whole-word retry
ever starts beyond the buffer. -/
theorem no_retry_high (buf n : Txt) (opts : FindOptions) (st i : Nat)
    (hn : n ≠ []) (hgt : buf.length < st)
    (hf : findIndex buf n opts st = some i) :
    boundaryOk buf (st + i) (st + i + n.length) = true := by
  have hdrop : buf.drop st = [] := List.drop_eq_nil_of_le (by omega)
  have hdoc : textBetween buf st buf.length = [] := by
    rw [textBetween_all, hdrop]
  have hsc : lowerIf opts.caseSensitive n ≠ [] := by
    unfold lowerIf
    cases opts.caseSensitive <;> simpa
  have hlower : lowerIf opts.caseSensitive ([] : Txt) = [] := by
    unfold lowerIf
    cases opts.caseSensitive <;> rfl
  have hi : i = 0 := by
    unfold findIndex at hf
    rw [hdoc, hlower, indexOfSub_nil_hay _ hsc] at hf
    by_cases hfz : opts.fuzzyMatch
    · rw [if_pos hfz] at hf
      cases hnw : indexOfSub (normWS (lowerIf opts.caseSensitive n))
          (collapseWS []) with
      | none => rw [hnw] at hf; cases hf
      | some j =>
        rw [hnw] at hf
        cases hf
        obtain ⟨_, hle⟩ := indexOfSub_sound _ _ _ hnw
        simp [collapseWS, collapseGo] at hle
        omega
    · rw [if_neg hfz] at hf
      cases hf
  subst hi
  unfold boundaryOk
  have hbefore : (if 0 < st + 0 then textBetween buf (st + 0 - 1) (st + 0) else [' ']) =
      ([] : Txt) := by
    rw [if_pos (by omega)]
    unfold textBetween
    rw [List.drop_eq_nil_of_le (by omega)]
    simp
  have hafter : ¬(st + 0 + n.length < buf.length) := by omega
  rw [hbefore, if_neg hafter]
  simp [isWordBoundary_nil, isWordBoundary_space]

/-- Fuel irrelevance for the whole-word retry loop: any two sufficient fuel
values give the same search result (needle nonempty). -/
theorem findTextAux_fuel (buf n : Txt) (opts : FindOptions) (hn : n ≠ []) :
    ∀ (f1 f2 st : Nat),
      buf.length + 2 - st ≤ f1 → 1 ≤ f1 →
      buf.length + 2 - st ≤ f2 → 1 ≤ f2 →
      findTextAux buf n opts f1 st = findTextAux buf n opts f2 st := by
  intro f1
  induction f1 using Nat.strong_induction_on with
  | _ f1 ih =>
    intro f2 st h1 h1' h2 h2'
    obtain ⟨a, rfl⟩ : ∃ a, f1 = a + 1 := ⟨f1 - 1, by omega⟩
    obtain ⟨b, rfl⟩ : ∃ b, f2 = b + 1 := ⟨f2 - 1, by omega⟩
    rw [findTextAux, findTextAux]
    cases hf : findIndex buf n opts st with
    | none => rfl
    | some i =>
      simp only []
      cases hww : opts.wholeWord with
      | false => simp
      | true =>
        simp only [if_pos rfl]
        by_cases hb : boundaryOk buf (st + i) (st + i + n.length) = true
        · rw [if_pos hb, if_pos hb]
        · rw [if_neg hb, if_neg hb]
          have hst : st ≤ buf.length := by
            by_contra hc
            exact hb (no_retry_high buf n opts st i hn (by omega) hf)
          have hlen : 1 ≤ n.length := List.length_pos.2 hn
          exact ih a (by omega) b (st + i + n.length)
            (by omega) (by omega) (by omega) (by omega)

/-- Claim C5.  Content search: (1) when the exact substring search from
`startFrom` succeeds at index `i` (no whole-word constraint), the result is
`[startFrom+i, startFrom+i+|needle|)` — whether or not fuzzy matching is
enabled — and the buffer text at that range is the needle verbatim;
(2) the whitespace-normalised retry is consulted exactly when the exact
search fails: without `fuzzyMatch` the search then returns `none`, with it
the result is determined by the normalised needle's position in the
whitespace-collapsed haystack; (3) with the whole-word option, a candidate
exact match whose neighbours are not boundaries is rejected and the search
recurses starting just past it. -/
theorem C5_find_text_position (buf n : Txt) :
    (∀ (st i : Nat) (fz : Bool),
      indexOfSub n (buf.drop st) = some i →
      findTextPosition buf n st ⟨true, false, fz⟩ =
        some (st + i, st + i + n.length) ∧
      textBetween buf (st + i) (st + i + n.length) = n) ∧
    (∀ st : Nat,
      indexOfSub n (buf.drop st) = none →
      findTextPosition buf n st ⟨true, false, false⟩ = none ∧
      findTextPosition buf n st ⟨true, false, true⟩ =
        (match indexOfSub (normWS n) (collapseWS (buf.drop st)) with
         | none => none
         | some i => some (st + i, st + i + n.length))) ∧
    (∀ (st i : Nat) (fz : Bool), n ≠ [] →
      indexOfSub n (buf.drop st) = some i →
      boundaryOk buf (st + i) (st + i + n.length) = false →
      findTextPosition buf n st ⟨true, true, fz⟩ =
        findTextPosition buf n (st + i + n.length) ⟨true, true, fz⟩) := by
  refine ⟨?_, ?_, ?_⟩
  · intro st i fz h
    constructor
    · unfold findTextPosition
      rw [findTextAux, findIndex_exact buf n false fz st i h]
      simp
    · obtain ⟨h1, _⟩ := indexOfSub_sound (buf.drop st) n i h
      have hrw : textBetween buf (st + i) (st + i + n.length) =
          ((buf.drop st).drop i).take n.length := by
        unfold textBetween
        rw [Nat.add_sub_cancel_left, List.drop_drop, Nat.add_comm]
      rw [hrw, h1]
  · intro st h
    obtain ⟨hno, hfz⟩ := findIndex_noexact buf n false st h
    constructor
    · unfold findTextPosition
      rw [findTextAux, hno]
    · unfold findTextPosition
      rw [findTextAux, hfz]
      cases indexOfSub (normWS n) (collapseWS (buf.drop st)) <;> rfl
  · intro st i fz hn h hb
    unfold findTextPosition
    conv_lhs => rw [findTextAux]
    rw [findIndex_exact buf n true fz st i h]
    simp only [if_pos rfl, hb, if_neg (by simp : ¬(false = true))]
    have hlen : 1 ≤ n.length := List.length_pos.2 hn
    exact findTextAux_fuel buf n ⟨true, true, fz⟩ hn (buf.length + 1) (buf.length + 2)
      (st + i + n.length) (by omega) (by omega) (by omega) (by omega)

/-- Witness for claim C5 at concrete inputs: exact search finds `"world"`
in `"hello world"` verbatim; `"zz"` is not found in `"hello"` with or
without fuzzing; the whole-word search for `"abc"` in `"xabcx abc"`
rejects the embedded match at 1 and restarts just past it. -/
theorem C5_find_text_position_witness :
    (findTextPosition "hello world".data "world".data 0 ⟨true, false, true⟩ =
      some (6, 11) ∧
     textBetween "hello world".data 6 11 = "world".data) ∧
    (findTextPosition "hello".data "zz".data 0 ⟨true, false, false⟩ = none ∧
     findTextPosition "hello".data "zz".data 0 ⟨true, false, true⟩ = none) ∧
    (findTextPosition "xabcx abc".data "abc".data 0 ⟨true, true, true⟩ =
      findTextPosition "xabcx abc".data "abc".data 4 ⟨true, true, true⟩) := by
  refine ⟨?_, ?_, ?_⟩
  · have := (C5_find_text_position "hello world".data "world".data).1 0 6 true (by decide)
    simpa using this
  · have := (C5_find_text_position "hello".data "zz".data).2.1 0 (by decide)
    simpa using this
  · have := (C5_find_text_position "xabcx abc".data "abc".data).2.2 0 1 true
      (by decide) (by decide) (by decide)
    simpa using this

/-! ## Claim C6: sentence-mode splitting -/

theorem pairSentences_spec (e : Option Txt) : ∀ (os ss : List Txt) (base : Nat),
    pairSentences e os ss base = pairedSpec e os ss base
  | [], ss, base => by cases ss <;> simp [pairSentences, pairedSpec, prefixStarts]
  | o :: os2, [], base => by simp [pairSentences, pairedSpec, prefixStarts]
  | o :: os2, s :: ss2, base => by
    have ih := pairSentences_spec e os2 ss2 (base + o.length)
    rw [pairSentences]
    unfold pairedSpec
    rw [prefixStarts]
    simp only [List.zip_cons_cons, List.filterMap_cons]
    by_cases hd : trimWS o ≠ trimWS s
    · rw [if_pos hd, if_pos hd, ih]
      rfl
    · rw [if_neg hd, if_neg hd, ih]
      rfl

/-- Counterexample to claim C6 as stated: matching sentence counts, input
well above the length threshold, but exactly one differing pair — the code
then returns the single whole-span replacement, not one `replace` per
differing pair. -/
theorem C6_counterexample :
    (splitSentences "Alpha beta gamma delta epsilon one. Second sentence stays put.".data).length =
      (splitSentences "Alpha beta gamma delta epsilon two. Second sentence stays put.".data).length ∧
    50 ≤ ("Alpha beta gamma delta epsilon one. Second sentence stays put.".data : Txt).length ∧
    splitBySentences
        "Alpha beta gamma delta epsilon one. Second sentence stays put.".data
        "Alpha beta gamma delta epsilon two. Second sentence stays put.".data
        0 62 none ≠
      pairedSpec none
        (splitSentences "Alpha beta gamma delta epsilon one. Second sentence stays put.".data)
        (splitSentences "Alpha beta gamma delta epsilon two. Second sentence stays put.".data)
        0 := by
  decide

/-- Claim C6, amended.  In sentence mode: differing sentence counts or an
input below the 50-character threshold yield the single whole-span
`replace`; with matching counts and a long enough input the splitter emits
one `replace` per pair differing after trimming — **provided at least two
pairs differ**; with zero or one differing pair it also degrades to the
single whole-span `replace` (the case the original claim omits, see
`C6_counterexample`). -/
theorem C6_sentence_split (o s : Txt) (a b : Nat) (e : Option Txt) :
    ((splitSentences o).length ≠ (splitSentences s).length ∨ o.length < 50 →
      splitBySentences o s a b e = [generateSimpleReplacement o s a b e]) ∧
    ((splitSentences o).length = (splitSentences s).length → ¬(o.length < 50) →
      (2 ≤ (pairedSpec e (splitSentences o) (splitSentences s) a).length →
        splitBySentences o s a b e =
          pairedSpec e (splitSentences o) (splitSentences s) a) ∧
      ((pairedSpec e (splitSentences o) (splitSentences s) a).length ≤ 1 →
        splitBySentences o s a b e = [generateSimpleReplacement o s a b e])) := by
  constructor
  · intro h
    unfold splitBySentences
    rw [if_pos h]
  · intro hcount hshort
    have hcond : ¬((splitSentences o).length ≠ (splitSentences s).length ∨
        o.length < 50) := by
      push_neg
      exact ⟨hcount, by omega⟩
    constructor
    · intro h2
      unfold splitBySentences
      rw [if_neg hcond, pairSentences_spec]
      rw [if_neg (by omega : ¬((pairedSpec e (splitSentences o) (splitSentences s)
        a).length = 0 ∨ (pairedSpec e (splitSentences o) (splitSentences s)
        a).length = 1))]
    · intro h1
      unfold splitBySentences
      rw [if_neg hcond, pairSentences_spec]
      rw [if_pos (by omega : (pairedSpec e (splitSentences o) (splitSentences s)
        a).length = 0 ∨ (pairedSpec e (splitSentences o) (splitSentences s)
        a).length = 1)]

/-- Witness for the amended claim C6 at concrete inputs: with two differing
pairs the splitter emits the two per-sentence replacements; a short input
degrades to the whole-span replacement. -/
theorem C6_sentence_split_witness :
    splitBySentences
        "Alpha beta gamma delta one. Bravo charlie delta echo foxtrot three.".data
        "Alpha beta gamma delta two. Bravo charlie delta echo foxtrot four.".data
        0 67 none =
      pairedSpec none
        (splitSentences
          "Alpha beta gamma delta one. Bravo charlie delta echo foxtrot three.".data)
        (splitSentences
          "Alpha beta gamma delta two. Bravo charlie delta echo foxtrot four.".data)
        0 ∧
    splitBySentences "Hi. Yo.".data "Ha. Ya.".data 5 12 none =
      [generateSimpleReplacement "Hi. Yo.".data "Ha. Ya.".data 5 12 none] := by
  constructor
  · exact ((C6_sentence_split
      "Alpha beta gamma delta one. Bravo charlie delta echo foxtrot three.".data
      "Alpha beta gamma delta two. Bravo charlie delta echo foxtrot four.".data
      0 67 none).2 (by decide) (by decide)).1 (by decide)
  · exact (C6_sentence_split "Hi. Yo.".data "Ha. Ya.".data 5 12 none).1
      (Or.inr (by decide))

/-! ## Claim C7: the data-model invariant -/

theorem mergeGo_inv13 : ∀ (rest : List WordSuggestion) (current : WordSuggestion),
    current.fromPos ≤ current.toPos →
    (current.type = SKind.remove → current.suggestedText = []) →
    (∀ x ∈ rest, x.fromPos ≤ x.toPos ∧ (x.type = SKind.remove → x.suggestedText = [])) →
    SepFrom (current.toPos + 1) rest →
    ∀ sg ∈ mergeGo current rest,
      sg.fromPos ≤ sg.toPos ∧ (sg.type = SKind.remove → sg.suggestedText = [])
  | [], current => by
    intro h1 h2 _ _ sg hsg
    rw [mergeGo] at hsg
    rcases List.mem_singleton.1 hsg with rfl
    exact ⟨h1, h2⟩
  | next :: rest2, current => by
    intro h1 h2 hall hsep sg hsg
    obtain ⟨hsep1, hsep2, hsep3⟩ := hsep
    rw [mergeGo] at hsg
    by_cases hc : next.fromPos - current.toPos ≤ 2 ∧ current.type = next.type ∧
        current.explanation = next.explanation
    · rw [if_pos hc] at hsg
      refine mergeGo_inv13 rest2
        ⟨current.fromPos, next.toPos, current.originalText ++ next.originalText,
          current.suggestedText ++ next.suggestedText, current.explanation,
          current.type⟩
        ?_ ?_ ?_ ?_ sg hsg
      · show current.fromPos ≤ next.toPos
        omega
      · intro ht
        show current.suggestedText ++ next.suggestedText = []
        rw [h2 ht, (hall next (by simp)).2 (by rw [← hc.2.1]; exact ht)]
        rfl
      · exact fun x hx => hall x (by simp [hx])
      · exact hsep3
    · rw [if_neg hc] at hsg
      rcases List.mem_cons.1 hsg with rfl | hsg
      · exact ⟨h1, h2⟩
      · exact mergeGo_inv13 rest2 next (hall next (by simp)).1
          ((hall next (by simp)).2) (fun x hx => hall x (by simp [hx])) hsep3 sg hsg

/-- Counterexample to claim C7 as stated: the diff of `"a b"` against
`"a X b Y"` yields two zero-width `add` suggestions one position apart;
the merge pass fuses them into a single `add` suggestion with
`fromPos < toPos`, violating the `add ⇒ from == to` clause. -/
theorem C7_counterexample :
    ∃ sg ∈ mergeAdjacentSuggestions
        (generateWordSuggestions "a b".data "a X b Y".data 0 none),
      sg.type = SKind.add ∧ sg.fromPos ≠ sg.toPos := by
  decide

/-- Claim C7, amended.  Every suggestion emitted by the diff generator
satisfies the full data-model invariant (`from <= to`, `add ⇒ from == to`,
`remove ⇒ suggestedText == ""`); the merge pass preserves `from <= to` and
the `remove` clause on generator output, but a merged `add` suggestion can
have `from < to` (see `C7_counterexample`). -/
theorem C7_invariants (o s : Txt) (b : Nat) (e : Option Txt) :
    (∀ sg ∈ generateWordSuggestions o s b e, SuggInv sg) ∧
    (∀ sg ∈ mergeAdjacentSuggestions (generateWordSuggestions o s b e),
      sg.fromPos ≤ sg.toPos ∧ (sg.type = SKind.remove → sg.suggestedText = [])) := by
  have hbridge := generateWordSuggestions_suggsOf o s b e
  constructor
  · rw [hbridge]
    exact suggsOf_inv b e _ 0
  · rw [hbridge]
    have hsep : SepFrom b (suggsOf b e (diffWordsWithSpace o s) 0) := by
      simpa using co_sep b e (diffWordsWithSpace_CO o s) 0
    have hinv := suggsOf_inv b e (diffWordsWithSpace o s) 0
    cases hl : suggsOf b e (diffWordsWithSpace o s) 0 with
    | nil =>
      intro sg hsg
      simp [mergeAdjacentSuggestions] at hsg
    | cons first rest =>
      rw [hl] at hsep
      have hfirst := hinv first (by rw [hl]; simp)
      intro sg hsg
      rw [mergeAdjacentSuggestions] at hsg
      exact mergeGo_inv13 rest first hfirst.1 hfirst.2.2
        (fun x hx => ⟨(hinv x (by rw [hl]; simp [hx])).1,
          (hinv x (by rw [hl]; simp [hx])).2.2⟩)
        hsep.2.2 sg hsg

/-- Witness for the amended claim C7 at a concrete input: the replacement
suggestion generated for `"I seen three cats"` → `"I saw three cats"`
satisfies the invariant, before and after merging. -/
theorem C7_invariants_witness :
    SuggInv ({ fromPos := 2, toPos := 6, originalText := "seen".data,
               suggestedText := "saw".data, explanation := none,
               type := SKind.replace } : WordSuggestion) ∧
    ({ fromPos := 2, toPos := 6, originalText := "seen".data,
       suggestedText := "saw".data, explanation := none,
       type := SKind.replace } : WordSuggestion).fromPos ≤ 6 :=
  ⟨(C7_invariants "I seen three cats".data "I saw three cats".data 0 none).1
      _ (by decide),
    ((C7_invariants "I seen three cats".data "I saw three cats".data 0 none).2
      _ (by decide)).1⟩

end WordDiff
